import Mathlib

/-
A verification development for the HomoVision core: the dense matrix kernel
(Gaussian elimination with partial pivoting, 3x3 cofactor inversion,
matrix-vector product), the 4-point DLT homography solver, the RANSAC robust
estimator, and the inverse-warping compositor.

Numbers are modelled as exact rationals (ℚ).  The JavaScript literal `1e-9`
is modelled as the exact rational 10⁻⁹, and the 5.0-pixel threshold as 5.
Matrices are row-major lists of lists of ℚ, mirroring the source's nested
arrays; out-of-range reads use `getD` with default 0 at places where the
source only ever reads in range.  `Math.random()`-driven RANSAC sampling is
modelled by an explicit `samples` parameter: one entry per trial, holding the
four distinct indices that the source's rejection-resampling loop produced.
-/

namespace HomoVision

/-- The exact rational value of the source's `1e-9` tolerance literal. -/
def EPS : ℚ := 1 / 1000000000

/-- The RANSAC inlier distance threshold (`const threshold = 5.0`). -/
def pixelThreshold : ℚ := 5

/-- `Math.abs`. -/
def mabs (q : ℚ) : ℚ := if q < 0 then -q else q

/-- A 2D point `{ x, y }` in native pixel coordinates. -/
structure Point where
  x : ℚ
  y : ℚ

/-- `entry B i j` is the matrix read `B[i][j]` (0 when out of range; the
source only reads in range at the call sites modelled here). -/
def entry (B : List (List ℚ)) (i j : ℕ) : ℚ := (B.getD i []).getD j 0

/-- Dot product of a matrix row with an (infinite-vector view of an) ℚ-vector,
summing over the row's actual length. -/
def dotv (r : List ℚ) (v : ℕ → ℚ) : ℚ :=
  ∑ j ∈ Finset.range r.length, r.getD j 0 * v j

/-- Every row of `B` is orthogonal to `v`, i.e. `v` is in the null space of
the row span of `B`. -/
def orth (B : List (List ℚ)) (v : ℕ → ℚ) : Prop :=
  ∀ i, dotv (B.getD i []) v = 0

/-- All entries in rows `≥ h` and columns `< k` vanish. -/
def ZeroBelow (B : List (List ℚ)) (h k : ℕ) : Prop :=
  ∀ i j, h ≤ i → j < k → entry B i j = 0

/-- Rows `< h` have zero entries strictly below the diagonal. -/
def SettledTri (B : List (List ℚ)) (h : ℕ) : Prop :=
  ∀ i j, i < h → j < i → entry B i j = 0

/-- Every row of `B` has length `n`. -/
def RowLen (B : List (List ℚ)) (n : ℕ) : Prop :=
  ∀ i, i < B.length → (B.getD i []).length = n

/-- Index-passing map, used to model the source's index-driven row/column
update loops. -/
def mapIdxFrom {α : Type} (f : ℕ → α → α) : ℕ → List α → List α
  | _, [] => []
  | s, a :: as => f s a :: mapIdxFrom f (s + 1) as

/-- `[B[h], B[i_max]] = [B[i_max], B[h]]`: swap two rows (both read before
either write, as in the destructuring assignment). -/
def swapRows (B : List (List ℚ)) (a b : ℕ) : List (List ℚ) :=
  let ra := B.getD a []
  let rb := B.getD b []
  (B.set a rb).set b ra

/-- Partial-pivot selection: the row index in `[h, m)` with the largest
`|B[i][k]|`, scanning `i = h+1 .. m-1` and keeping the strictly larger. -/
def findPivotRow (B : List (List ℚ)) (h k m : ℕ) : ℕ :=
  (List.range' (h + 1) (m - (h + 1))).foldl
    (fun imax i => if mabs (entry B i k) > mabs (entry B imax k) then i else imax) h

/-- One elimination row update: `f = B[i][k] / B[h][k]`, `B[i][k] = 0`, and
`B[i][j] -= B[h][j] * f` for `j > k`. `p` is the pivot row, `r` the row being
updated. -/
def elimRow (p : List ℚ) (k : ℕ) (r : List ℚ) : List ℚ :=
  let fct := r.getD k 0 / p.getD k 0
  mapIdxFrom (fun j x => if j < k then x else if j = k then 0 else x - p.getD j 0 * fct) 0 r

/-- Eliminate all rows below the pivot row `h` in column `k`. -/
def elimBelow (B : List (List ℚ)) (h k : ℕ) : List (List ℚ) :=
  mapIdxFrom (fun i row => if h < i then elimRow (B.getD h []) k row else row) 0 B

/-- The `while (h < m && k < n)` loop of `gaussianElimination`.  `k` strictly
increases every iteration, so fuel `n` runs the loop to completion. -/
def geLoop (m n : ℕ) (B : List (List ℚ)) (h k : ℕ) : ℕ → List (List ℚ)
  | 0 => B
  | fuel + 1 =>
    if h < m ∧ k < n then
      let imax := findPivotRow B h k m
      if mabs (entry B imax k) < EPS then
        geLoop m n B h (k + 1) fuel
      else
        geLoop m n (elimBelow (swapRows B h imax) h k) (h + 1) (k + 1) fuel
    else B

/-- `gaussianElimination(A)`: row-echelon reduction with partial pivoting of a
copy of `A` (the model is pure, so the copy is implicit). -/
def gaussianElimination (A : List (List ℚ)) : List (List ℚ) :=
  let m := A.length
  let n := (A.getD 0 []).length
  geLoop m n A 0 0 n

/-- `multiplyMatrixVector(A, v)`.  The source throws on a dimension mismatch
(`A[0].length !== v.length`); every call in the repository passes a 3×3 matrix
with a length-3 vector, so the model is the in-range product, summing each row
against `v` over `v`'s length. -/
def multiplyMatrixVector (A : List (List ℚ)) (v : List ℚ) : List ℚ :=
  A.map (fun row => (List.range v.length).foldl (fun s j => s + row.getD j 0 * v.getD j 0) 0)

/-- The read `A[i][j]` as an optional value: `none` models the JavaScript
`undefined` produced by an out-of-range index. -/
def ent? (A : List (List ℚ)) (i j : ℕ) : Option ℚ := (A.getD i [])[j]?

/-- The cofactor-expansion determinant read off the nine entries
`m[0][0] .. m[2][2]`.  `none` models the NaN the source computes when any of
the nine reads is out of range (NaN propagates through the arithmetic). -/
def det3? (A : List (List ℚ)) : Option ℚ := do
  let m00 ← ent? A 0 0
  let m01 ← ent? A 0 1
  let m02 ← ent? A 0 2
  let m10 ← ent? A 1 0
  let m11 ← ent? A 1 1
  let m12 ← ent? A 1 2
  let m20 ← ent? A 2 0
  let m21 ← ent? A 2 1
  let m22 ← ent? A 2 2
  pure (m00 * (m11 * m22 - m21 * m12) - m01 * (m10 * m22 - m12 * m20) +
    m02 * (m10 * m21 - m11 * m20))

/-- The same determinant expression with default-0 reads; only used to fill in
the (value-irrelevant) NaN-polluted branch of `invert3x3`. -/
def detD (A : List (List ℚ)) : ℚ :=
  entry A 0 0 * (entry A 1 1 * entry A 2 2 - entry A 2 1 * entry A 1 2) -
    entry A 0 1 * (entry A 1 0 * entry A 2 2 - entry A 1 2 * entry A 2 0) +
    entry A 0 2 * (entry A 1 0 * entry A 2 1 - entry A 1 1 * entry A 2 0)

/-- The nine adjugate-over-determinant entries of `invert3x3`, line for line
from the source (`invDet = 1.0 / det`). -/
def inv3x3Body (A : List (List ℚ)) (det : ℚ) : List (List ℚ) :=
  let invDet := 1 / det
  [[(entry A 1 1 * entry A 2 2 - entry A 2 1 * entry A 1 2) * invDet,
    (entry A 0 2 * entry A 2 1 - entry A 0 1 * entry A 2 2) * invDet,
    (entry A 0 1 * entry A 1 2 - entry A 0 2 * entry A 1 1) * invDet],
   [(entry A 1 2 * entry A 2 0 - entry A 1 0 * entry A 2 2) * invDet,
    (entry A 0 0 * entry A 2 2 - entry A 0 2 * entry A 2 0) * invDet,
    (entry A 1 0 * entry A 0 2 - entry A 0 0 * entry A 1 2) * invDet],
   [(entry A 1 0 * entry A 2 1 - entry A 2 0 * entry A 1 1) * invDet,
    (entry A 2 0 * entry A 0 1 - entry A 0 0 * entry A 2 1) * invDet,
    (entry A 0 0 * entry A 1 1 - entry A 1 0 * entry A 0 1) * invDet]]

/-- `invert3x3(A)`.  `.error ()` models the thrown `Error` when
`A.length !== 3 || A[0].length !== 3`; `.ok none` is the not-invertible null
signal when `|det| < 1e-9`; `.ok (some B)` is a returned matrix.  When a read
among the nine is out of range the source's determinant is NaN, `NaN < 1e-9`
is false, and a NaN-polluted matrix is returned: that branch is modelled by
`.ok (some _)` with default-0 reads, and no theorem depends on its entries. -/
def invert3x3 (A : List (List ℚ)) : Except Unit (Option (List (List ℚ))) :=
  if A.length = 3 ∧ (A.getD 0 []).length = 3 then
    match det3? A with
    | some det => if mabs det < EPS then .ok none else .ok (some (inv3x3Body A det))
    | none => .ok (some (inv3x3Body A (detD A)))
  else .error ()

/-- The two DLT rows contributed by the correspondence `(p1, p2)`. -/
def buildRows (p1 p2 : Point) : List (List ℚ) :=
  [[-p1.x, -p1.y, -1, 0, 0, 0, p1.x * p2.x, p1.y * p2.x, p2.x],
   [0, 0, 0, -p1.x, -p1.y, -1, p1.x * p2.y, p1.y * p2.y, p2.y]]

/-- The 8×9 coefficient matrix of `solveHomographyFor4Points` (loop
`i = 0 .. 3`; the source's calls always supply at least 4 points, so the
`getD` default is never read). -/
def buildA4 (p1s p2s : List Point) : List (List ℚ) :=
  List.flatten ((List.range 4).map (fun i => buildRows (p1s.getD i ⟨0, 0⟩) (p2s.getD i ⟨0, 0⟩)))

/-- The 2n×9 coefficient matrix built by the alternative
`calculateHomography` (loop `i = 0 .. n-1` over all points). -/
def buildAn (p1s p2s : List Point) : List (List ℚ) :=
  List.flatten ((List.range p1s.length).map
    (fun i => buildRows (p1s.getD i ⟨0, 0⟩) (p2s.getD i ⟨0, 0⟩)))

/-- The sum `Σ_{j=i+1}^{8} B[i][j] * h[j]` of the back-substitution loop
(`for (j = i + 1; j < 9; j++) sum += B[i][j] * h[j]`). -/
def bsSum (B : List (List ℚ)) (h : ℕ → ℚ) (i : ℕ) : ℚ :=
  (List.range' (i + 1) (8 - i)).foldl (fun s j => s + entry B i j * h j) 0

/-- One back-substitution step: write slot `i` with
`-(Σ_{j>i} B[i][j]·h[j]) / B[i][i]`, or `0` when `|B[i][i]| < 1e-9`. -/
def bsUpdate (B : List (List ℚ)) (h : ℕ → ℚ) (i : ℕ) : ℕ → ℚ :=
  let s := bsSum B h i
  let Bii := entry B i i
  fun j => if j = i then (if mabs Bii < EPS then 0 else -s / Bii) else h j

/-- The back-substitution loop after `t` iterations: starting from
`h = [0,...,0]` with `h[8] = 1`, iteration `t` writes slot `i = 7 - t`
(the source's `for (i = 7; i >= 0; i--)`). -/
def bsRun (B : List (List ℚ)) : ℕ → (ℕ → ℚ)
  | 0 => fun j => if j = 8 then 1 else 0
  | t + 1 => bsUpdate B (bsRun B t) (7 - t)

/-- The fully back-substituted solution vector (as a function on slots). -/
def backSubs (B : List (List ℚ)) : ℕ → ℚ := bsRun B 8

/-- `solveHomogeneous(A)`: eliminate, then back-substitute for `h[7] .. h[0]`
with gauge `h[8] = 1`.  The source's `try/catch` never fires for the 8×9
systems the solver builds (no operation there throws), so the result is
always `some` of a 9-vector. -/
def solveHomogeneous (A : List (List ℚ)) : Option (List ℚ) :=
  some ((List.range 9).map (backSubs (gaussianElimination A)))

/-- Reshape a 9-vector into the 3×3 matrix `H`. -/
def reshape3 (h : List ℚ) : List (List ℚ) :=
  [[h.getD 0 0, h.getD 1 0, h.getD 2 0],
   [h.getD 3 0, h.getD 4 0, h.getD 5 0],
   [h.getD 6 0, h.getD 7 0, h.getD 8 0]]

/-- Solve the homogeneous system, reshape, and conditionally normalize by
`H[2][2]`: entry-wise division unless `|H[2][2]| < 1e-9`.  This tail is
textually identical in `solveHomographyFor4Points` and in the alternative
implementation's 4-point branch, so it is modelled once. -/
def finishSolve (A : List (List ℚ)) : Option (List (List ℚ)) :=
  match solveHomogeneous A with
  | none => none
  | some hv =>
    let H := reshape3 hv
    let h22 := entry H 2 2
    if mabs h22 < EPS then some H
    else some (H.map (fun row => row.map (fun x => x / h22)))

/-- `solveHomographyFor4Points(points1, points2)`. -/
def solveHomographyFor4Points (p1s p2s : List Point) : Option (List (List ℚ)) :=
  finishSolve (buildA4 p1s p2s)

/-- The alternative `calculateHomography` (DLT file): guard, build the 2n×9
system over all points, direct solve when `n = 4`, `null` otherwise (the
over-determined SVD case is unimplemented and returns `null`). -/
def calculateHomographyAlt (p1s p2s : List Point) : Option (List (List ℚ)) :=
  if p1s.length < 4 ∨ p1s.length ≠ p2s.length then none
  else if p1s.length = 4 then finishSolve (buildAn p1s p2s)
  else none

/-- The RANSAC inlier predicate of the claim: projecting `p1` through `H`
gives `(hx, hy, hw)`; the point is an inlier when `|hw| ≥ 1e-9` and the
Euclidean distance from `(hx/hw, hy/hw)` to `p2` is below the 5-pixel
threshold.  Distances are compared squared: for nonnegative reals,
`sqrt d < 5 ↔ d < 25`, so this is the source's `Math.sqrt` test exactly. -/
def isInlier (H : List (List ℚ)) (p1 p2 : Point) : Prop :=
  EPS ≤ mabs ((multiplyMatrixVector H [p1.x, p1.y, 1]).getD 2 0) ∧
    (p2.x - (multiplyMatrixVector H [p1.x, p1.y, 1]).getD 0 0 /
        (multiplyMatrixVector H [p1.x, p1.y, 1]).getD 2 0) ^ 2 +
      (p2.y - (multiplyMatrixVector H [p1.x, p1.y, 1]).getD 1 0 /
        (multiplyMatrixVector H [p1.x, p1.y, 1]).getD 2 0) ^ 2 <
      pixelThreshold ^ 2

instance (H : List (List ℚ)) (p1 p2 : Point) : Decidable (isInlier H p1 p2) := by
  unfold isInlier
  infer_instance

/-- The body of the RANSAC scoring loop for index `j`: `continue` when
`|projected[2]| < 1e-9`, else bump the count when
`Math.sqrt(dx*dx + dy*dy) < threshold` (compared squared, exactly). -/
def inlierBump (H : List (List ℚ)) (p1s p2s : List Point) (acc : ℕ) (j : ℕ) : ℕ :=
  let p1 := p1s.getD j ⟨0, 0⟩
  let p2 := p2s.getD j ⟨0, 0⟩
  let pr := multiplyMatrixVector H [p1.x, p1.y, 1]
  let pw := pr.getD 2 0
  if mabs pw < EPS then acc
  else
    let dx := p2.x - pr.getD 0 0 / pw
    let dy := p2.y - pr.getD 1 0 / pw
    if dx * dx + dy * dy < pixelThreshold * pixelThreshold then acc + 1 else acc

/-- The RANSAC scoring loop: count correspondences whose projection through
`H` lands within the threshold; points with `|hw| < 1e-9` are skipped. -/
def countInliers (H : List (List ℚ)) (p1s p2s : List Point) : ℕ :=
  (List.range p1s.length).foldl (inlierBump H p1s p2s) 0

/-- `randomIndices.map(idx => points[idx])` for one trial's index sample. -/
def sampleOf (pts : List Point) (idxs : List ℕ) : List Point :=
  idxs.map (fun i => pts.getD i ⟨0, 0⟩)

/-- One RANSAC trial: fit on the sample, skip if the solver yields nothing
(that branch is unreachable: the solver is total), keep the candidate iff its
inlier count strictly beats the best so far. -/
def ransacStep (p1s p2s : List Point) (st : Option (List (List ℚ)) × ℤ)
    (idxs : List ℕ) : Option (List (List ℚ)) × ℤ :=
  match solveHomographyFor4Points (sampleOf p1s idxs) (sampleOf p2s idxs) with
  | none => st
  | some H =>
    if (countInliers H p1s p2s : ℤ) > st.2 then (some H, (countInliers H p1s p2s : ℤ))
    else st

/-- The trial loop, starting from `bestH = null`, `maxInliers = -1`. -/
def ransacFold (p1s p2s : List Point) (samples : List (List ℕ)) :
    Option (List (List ℚ)) × ℤ :=
  samples.foldl (ransacStep p1s p2s) (none, -1)

/-- `calculateHomography(points1, points2)` with the random index draws made
explicit: `samples` has one entry per trial (1000 trials in the source), each
the list of 4 distinct indices produced by the rejection-resampling loop. -/
def calculateHomography (p1s p2s : List Point) (samples : List (List ℕ)) :
    Option (List (List ℚ)) :=
  if p1s.length < 4 ∨ p1s.length ≠ p2s.length then none
  else if p1s.length = 4 then solveHomographyFor4Points p1s p2s
  else
    let st := ransacFold p1s p2s samples
    if st.2 < 4 then none else st.1

/-- Invariant of the RANSAC fold state `(bestH, maxInliers)`: a `null` best
still has the initial score `-1`, and a non-null best is the 4-point solver's
output for one of the index draws in `univ`, with `maxInliers` equal to its
inlier count — i.e. the best model is used as-is, never re-fit. -/
def GoodSt (p1s p2s : List Point) (univ : List (List ℕ))
    (st : Option (List (List ℚ)) × ℤ) : Prop :=
  (st.1 = none → st.2 = -1) ∧
  ∀ H, st.1 = some H → ∃ idxs ∈ univ,
    solveHomographyFor4Points (sampleOf p1s idxs) (sampleOf p2s idxs) = some H ∧
    (countInliers H p1s p2s : ℤ) = st.2

/-- The destination pixel `(x, y)` lies inside the slider split rectangle
`x < (splitX/100)·w2 ∧ y < (splitY/100)·h2`. -/
def inSplitRect (splitX splitY : ℚ) (dstW dstH : ℕ) (x y : ℕ) : Prop :=
  (x : ℚ) < splitX / 100 * dstW ∧ (y : ℚ) < splitY / 100 * dstH

instance (splitX splitY : ℚ) (dstW dstH x y : ℕ) :
    Decidable (inSplitRect splitX splitY dstW dstH x y) := by
  unfold inSplitRect
  infer_instance

/-- The inverse-mapped, dehomogenized source coordinate of destination pixel
`(x, y)`: `(sx, sy, sw) = H⁻¹·(x, y, 1)`, result `(sx/sw, sy/sw)`.  When
`sw = 0` the JavaScript quotients are non-finite and fail the bounds test
below; this is modelled as `none`. -/
def sourceCoord (inv : List (List ℚ)) (x y : ℕ) : Option (ℚ × ℚ) :=
  let sv := multiplyMatrixVector inv [(x : ℚ), (y : ℚ), 1]
  if sv.getD 2 0 = 0 then none
  else some (sv.getD 0 0 / sv.getD 2 0, sv.getD 1 0 / sv.getD 2 0)

/-- The inverse-mapped source coordinate of `(x, y)` misses `[0,w1)×[0,h1)`
(or is non-finite), so the warp loop writes nothing at `(x, y)`. -/
def srcOutOfBounds (inv : List (List ℚ)) (srcW srcH : ℕ) (x y : ℕ) : Prop :=
  ∀ sx sy, sourceCoord inv x y = some (sx, sy) →
    ¬(0 ≤ sx ∧ sx < srcW ∧ 0 ≤ sy ∧ sy < srcH)

/-- Round half to even, the rounding of `Uint8ClampedArray` stores. -/
def roundHalfEven (q : ℚ) : ℤ :=
  if q - ⌊q⌋ < 1 / 2 then ⌊q⌋
  else if 1 / 2 < q - ⌊q⌋ then ⌊q⌋ + 1
  else if ⌊q⌋ % 2 = 0 then ⌊q⌋ else ⌊q⌋ + 1

/-- The `Uint8ClampedArray` store conversion: clamp to `[0, 255]`, round half
to even. -/
def clampByte (q : ℚ) : ℕ :=
  if q ≤ 0 then 0 else if 255 ≤ q then 255 else (roundHalfEven q).toNat

/-- One pixel of the `transformedImageData` buffer: `createImageData` zero
fills (transparent black), and the warp loop overwrites a pixel only when its
source coordinate is in bounds, with the bilinearly interpolated sample. -/
def transformedPixel (inv : List (List ℚ)) (srcW srcH : ℕ)
    (srcPx : ℕ → ℕ → Fin 4 → ℕ) (x y : ℕ) (ch : Fin 4) : ℕ :=
  match sourceCoord inv x y with
  | none => 0
  | some (sx, sy) =>
    if 0 ≤ sx ∧ sx < srcW ∧ 0 ≤ sy ∧ sy < srcH then
      let xf := (⌊sx⌋).toNat
      let yf := (⌊sy⌋).toNat
      let xc := min (srcW - 1) (xf + 1)
      let yc := min (srcH - 1) (yf + 1)
      let tx := sx - (xf : ℚ)
      let ty := sy - (yf : ℚ)
      let b1 := (srcPx xf yf ch : ℚ) * (1 - tx) + (srcPx xc yf ch : ℚ) * tx
      let b2 := (srcPx xf yc ch : ℚ) * (1 - tx) + (srcPx xc yc ch : ℚ) * tx
      clampByte (b1 * (1 - ty) + b2 * ty)
    else 0

/-- The raster produced by `drawTransformedImage` up to (and not including)
the decorative dashed guide lines: invert `H` (propagating the thrown shape
error and the not-invertible abort as `none`), draw the destination image as
the base, then `ctx.putImageData(transformedImageData, 0, 0)`.  Per the
canvas specification `putImageData` writes pixels directly to the bitmap and
is unaffected by the clipping region, so the `ctx.rect`/`ctx.clip` path built
from the split sliders does not restrict the write: the full `dstW × dstH`
buffer replaces the raster, covering the step-1 base draw entirely.  The
split values and the base image remain inputs of the source closure but do
not influence any canvas pixel (`x < dstW`, `y < dstH`); the `else` branch
exists only to make the model total on coordinates off the canvas. -/
def drawTransformedImage (matrix : List (List ℚ)) (srcW srcH : ℕ)
    (srcPx : ℕ → ℕ → Fin 4 → ℕ) (dstW dstH : ℕ)
    (basePx : ℕ → ℕ → Fin 4 → ℕ) (splitX splitY : ℚ) :
    Option (ℕ → ℕ → Fin 4 → ℕ) :=
  match invert3x3 matrix with
  | .error _ => none
  | .ok none => none
  | .ok (some inv) =>
    some (fun x y ch =>
      if x < dstW ∧ y < dstH then
        transformedPixel inv srcW srcH srcPx x y ch
      else basePx x y ch)

/-- The pre-normalization matrix of the 4-point solver: the reshaped solution
of the homogeneous system, before the conditional division by `H[2][2]`. -/
def preH (p1s p2s : List Point) : List (List ℚ) :=
  reshape3 ((List.range 9).map (backSubs (gaussianElimination (buildA4 p1s p2s))))

/-- The vector `(1,0,0,0,1,0,0,0,1)` whose reshape is the 3×3 identity. -/
def idVec : ℕ → ℚ := fun j => if j = 0 ∨ j = 4 ∨ j = 8 then 1 else 0

/-- The 3×3 identity matrix. -/
def identity3 : List (List ℚ) := [[1, 0, 0], [0, 1, 0], [0, 0, 1]]

/-! ### General lemmas about the list primitives -/

theorem mabs_eq_abs (q : ℚ) : mabs q = |q| := by
  unfold mabs
  split_ifs with h
  · exact (abs_of_neg h).symm
  · exact (abs_of_nonneg (not_lt.mp h)).symm

theorem length_mapIdxFrom {α : Type} (f : ℕ → α → α) :
    ∀ (s : ℕ) (l : List α), (mapIdxFrom f s l).length = l.length
  | _, [] => rfl
  | s, _ :: as => by simp [mapIdxFrom, length_mapIdxFrom f (s + 1) as]

theorem getD_mapIdxFrom {α : Type} (f : ℕ → α → α) (d : α) :
    ∀ (l : List α) (s i : ℕ),
      (mapIdxFrom f s l).getD i d = if i < l.length then f (s + i) (l.getD i d) else d
  | [], s, i => by simp [mapIdxFrom]
  | a :: as, s, 0 => by simp [mapIdxFrom]
  | a :: as, s, i + 1 => by
    simp only [mapIdxFrom, List.getD_cons_succ, List.length_cons]
    rw [getD_mapIdxFrom f d as (s + 1) i]
    by_cases h : i < as.length
    · rw [if_pos h, if_pos (by omega)]
      have : s + 1 + i = s + (i + 1) := by omega
      rw [this]
    · rw [if_neg h, if_neg (by omega)]

theorem getD_set_split {α : Type} (d a : α) :
    ∀ (l : List α) (i j : ℕ),
      (l.set i a).getD j d = if i = j ∧ j < l.length then a else l.getD j d
  | [], i, j => by simp
  | x :: xs, 0, 0 => by simp
  | x :: xs, 0, j + 1 => by simp
  | x :: xs, i + 1, 0 => by simp
  | x :: xs, i + 1, j + 1 => by
    simp only [List.set_cons_succ, List.getD_cons_succ, List.length_cons]
    rw [getD_set_split d a xs i j]
    refine if_congr ?_ rfl rfl
    omega

theorem getD_oob {α : Type} (d : α) :
    ∀ (l : List α) (i : ℕ), l.length ≤ i → l.getD i d = d
  | [], _, _ => rfl
  | x :: xs, i + 1, h => by
    simpa using getD_oob d xs i (by simpa using h)

theorem getD_mem {α : Type} (d : α) :
    ∀ (l : List α) (i : ℕ), i < l.length → l.getD i d ∈ l
  | x :: xs, 0, _ => by simp
  | x :: xs, i + 1, h => by
    simpa using Or.inr (getD_mem d xs i (by simpa using h))

theorem length_swapRows (B : List (List ℚ)) (a b : ℕ) :
    (swapRows B a b).length = B.length := by
  simp [swapRows]

theorem swapRows_getD (B : List (List ℚ)) (a b i : ℕ) :
    (swapRows B a b).getD i [] =
      if b = i ∧ i < B.length then B.getD a []
      else if a = i ∧ i < B.length then B.getD b [] else B.getD i [] := by
  unfold swapRows
  rw [getD_set_split, getD_set_split]
  simp only [List.length_set]

theorem length_elimRow (p : List ℚ) (k : ℕ) (r : List ℚ) :
    (elimRow p k r).length = r.length := by
  simp [elimRow, length_mapIdxFrom]

theorem getD_elimRow (p : List ℚ) (k : ℕ) (r : List ℚ) (j : ℕ) (hj : j < r.length) :
    (elimRow p k r).getD j 0 =
      if j < k then r.getD j 0
      else if j = k then 0
      else r.getD j 0 - p.getD j 0 * (r.getD k 0 / p.getD k 0) := by
  unfold elimRow
  rw [getD_mapIdxFrom, if_pos hj]
  simp

theorem length_elimBelow (B : List (List ℚ)) (h k : ℕ) :
    (elimBelow B h k).length = B.length := by
  simp [elimBelow, length_mapIdxFrom]

theorem getD_elimBelow (B : List (List ℚ)) (h k i : ℕ) :
    (elimBelow B h k).getD i [] =
      if i < B.length then
        (if h < i then elimRow (B.getD h []) k (B.getD i []) else B.getD i [])
      else [] := by
  unfold elimBelow
  rw [getD_mapIdxFrom]
  simp

theorem entry_oob_row (B : List (List ℚ)) (i j : ℕ) (h : B.length ≤ i) :
    entry B i j = 0 := by
  unfold entry
  rw [getD_oob _ _ _ h]
  simp

theorem entry_oob_col (B : List (List ℚ)) (n i j : ℕ) (hR : RowLen B n) (h : n ≤ j) :
    entry B i j = 0 := by
  unfold entry
  rcases lt_or_le i B.length with hi | hi
  · exact getD_oob _ _ _ (by rw [hR i hi]; exact h)
  · rw [getD_oob _ _ _ hi]
    simp

/-! ### C7: caller-level validation -/

/-- C7: for every pair of input sequences with fewer than 4 points or
mismatched lengths, `calculateHomography` returns `null` (for all sample
draws and all coordinate values, i.e. without reading any coordinate, and
without any exception: the model is total). -/
theorem claim7 (p1s p2s : List Point) (samples : List (List ℕ))
    (hbad : p1s.length < 4 ∨ p1s.length ≠ p2s.length) :
    calculateHomography p1s p2s samples = none := by
  unfold calculateHomography
  rw [if_pos hbad]

/-- Witness for C7 at a concrete too-short input. -/
theorem claim7_witness :
    (([] : List Point).length < 4 ∨ ([] : List Point).length ≠ [Point.mk 1 2].length) ∧
      calculateHomography [] [Point.mk 1 2] [] = none :=
  ⟨Or.inl (by decide), claim7 [] [Point.mk 1 2] [] (Or.inl (by decide))⟩

/-! ### C10: the two calculateHomography implementations agree on 4 pairs -/

/-- C10: on every input of exactly 4 correspondence pairs, the RANSAC-file
`calculateHomography` (for any sample draws) and the alternative DLT-file
`calculateHomography` return equal results: the same coefficient matrix is
built, solved and conditionally normalized. -/
theorem claim10 (p1s p2s : List Point) (samples : List (List ℕ))
    (h1 : p1s.length = 4) (h2 : p2s.length = 4) :
    calculateHomography p1s p2s samples = calculateHomographyAlt p1s p2s := by
  unfold calculateHomography calculateHomographyAlt solveHomographyFor4Points buildA4 buildAn
  rw [h1, h2]
  simp

/-- Witness for C10 at a concrete 4-pair input. -/
theorem claim10_witness :
    [Point.mk 0 0, Point.mk 1 0, Point.mk 0 1, Point.mk 1 1].length = 4 ∧
      calculateHomography [Point.mk 0 0, Point.mk 1 0, Point.mk 0 1, Point.mk 1 1]
          [Point.mk 0 0, Point.mk 2 0, Point.mk 0 2, Point.mk 2 2] [] =
        calculateHomographyAlt [Point.mk 0 0, Point.mk 1 0, Point.mk 0 1, Point.mk 1 1]
          [Point.mk 0 0, Point.mk 2 0, Point.mk 0 2, Point.mk 2 2] :=
  ⟨by decide, claim10 _ _ [] (by decide) (by decide)⟩

/-! ### C4: the RANSAC inlier test -/

theorem inlierBump_eq (H : List (List ℚ)) (p1s p2s : List Point) (acc j : ℕ) :
    inlierBump H p1s p2s acc j =
      if isInlier H (p1s.getD j ⟨0, 0⟩) (p2s.getD j ⟨0, 0⟩) then acc + 1 else acc := by
  simp only [inlierBump, isInlier, pow_two]
  set pr := multiplyMatrixVector H
    [(p1s.getD j ⟨0, 0⟩).x, (p1s.getD j ⟨0, 0⟩).y, 1] with hpr
  by_cases h1 : mabs (pr.getD 2 0) < EPS
  · rw [if_pos h1, if_neg]
    intro hc
    exact absurd hc.1 (not_le.mpr h1)
  · rw [if_neg h1]
    by_cases h2 :
        ((p2s.getD j ⟨0, 0⟩).x - pr.getD 0 0 / pr.getD 2 0) *
            ((p2s.getD j ⟨0, 0⟩).x - pr.getD 0 0 / pr.getD 2 0) +
          ((p2s.getD j ⟨0, 0⟩).y - pr.getD 1 0 / pr.getD 2 0) *
            ((p2s.getD j ⟨0, 0⟩).y - pr.getD 1 0 / pr.getD 2 0) <
          pixelThreshold * pixelThreshold
    · rw [if_pos h2, if_pos ⟨not_lt.mp h1, h2⟩]
    · rw [if_neg h2, if_neg (fun hc => absurd hc.2 h2)]

theorem countInliers_foldl (H : List (List ℚ)) (p1s p2s : List Point) :
    ∀ (l : List ℕ) (acc : ℕ),
      l.foldl (inlierBump H p1s p2s) acc =
        acc + (l.filter
          (fun j => decide (isInlier H (p1s.getD j ⟨0, 0⟩) (p2s.getD j ⟨0, 0⟩)))).length
  | [], acc => by simp
  | j :: l, acc => by
    simp only [List.foldl_cons, List.filter_cons]
    rw [countInliers_foldl H p1s p2s l, inlierBump_eq]
    by_cases h : isInlier H (p1s.getD j ⟨0, 0⟩) (p2s.getD j ⟨0, 0⟩)
    · rw [if_pos h, if_pos (decide_eq_true h)]
      simp only [List.length_cons]
      omega
    · rw [if_neg h, if_neg (fun hc => h (of_decide_eq_true hc))]

/-- C4: during RANSAC scoring, the inlier count of a candidate `H` is exactly
the number of indices `j` whose correspondence satisfies `isInlier`:
`|hw| ≥ 1e-9` and squared reprojection distance below the squared 5-pixel
threshold; points with `|hw| < 1e-9` are skipped and contribute nothing. -/
theorem claim4 (H : List (List ℚ)) (p1s p2s : List Point) :
    countInliers H p1s p2s =
      ((List.range p1s.length).filter
        (fun j => decide (isInlier H (p1s.getD j ⟨0, 0⟩) (p2s.getD j ⟨0, 0⟩)))).length := by
  unfold countInliers
  rw [countInliers_foldl]
  omega

/-! ### C3: shape of the back-substitution solution -/

theorem bsRun_slot8 (B : List (List ℚ)) : ∀ t : ℕ, bsRun B t 8 = 1
  | 0 => by simp [bsRun]
  | t + 1 => by
    simp only [bsRun, bsUpdate]
    rw [if_neg (by omega), bsRun_slot8 B t]

theorem bsRun_stable (B : List (List ℚ)) :
    ∀ (s t j : ℕ), t + s ≤ 8 → 8 - t ≤ j → bsRun B (t + s) j = bsRun B t j
  | 0, t, j, _, _ => rfl
  | s + 1, t, j, hts, hj => by
    have h1 : t + (s + 1) = (t + s) + 1 := by omega
    rw [h1]
    simp only [bsRun, bsUpdate]
    rw [if_neg (by omega)]
    exact bsRun_stable B s t j (by omega) hj

theorem foldl_sum_congr (f g : ℕ → ℚ) :
    ∀ (l : List ℕ) (a : ℚ), (∀ j ∈ l, f j = g j) →
      l.foldl (fun s j => s + f j) a = l.foldl (fun s j => s + g j) a
  | [], _, _ => rfl
  | x :: l, a, h => by
    simp only [List.foldl_cons]
    rw [h x (by simp)]
    exact foldl_sum_congr f g l _ (fun j hj => h j (by simp [hj]))

theorem backSubs_slot8 (B : List (List ℚ)) : backSubs B 8 = 1 :=
  bsRun_slot8 B 8

theorem backSubs_slot (B : List (List ℚ)) (i : ℕ) (hi : i < 8) :
    backSubs B i =
      if mabs (entry B i i) < EPS then 0
      else -(bsSum B (backSubs B) i) / entry B i i := by
  have hrun : backSubs B i = bsRun B (8 - i) i := by
    unfold backSubs
    conv_lhs => rw [show (8 : ℕ) = (8 - i) + i from by omega]
    exact bsRun_stable B i (8 - i) i (by omega) (by omega)
  have hstep : (8 - i) = (7 - i) + 1 := by omega
  rw [hrun, hstep]
  simp only [bsRun, bsUpdate]
  have h7 : 7 - (7 - i) = i := by omega
  rw [h7, if_pos rfl]
  have hsum : bsSum B (bsRun B (7 - i)) i = bsSum B (backSubs B) i := by
    unfold bsSum
    refine foldl_sum_congr (fun j => entry B i j * bsRun B (7 - i) j)
      (fun j => entry B i j * backSubs B j) _ 0 ?_
    intro j hj
    rw [List.mem_range'_1] at hj
    have heq : bsRun B (7 - i) j = backSubs B j := by
      unfold backSubs
      conv_rhs => rw [show (8 : ℕ) = (7 - i) + (i + 1) from by omega]
      exact (bsRun_stable B (i + 1) (7 - i) j (by omega) (by omega)).symm
    simp only [heq]
  rw [hsum]

/-- C3: `solveHomogeneous` never fails: it returns `some` of the 9-vector
with `h[8] = 1` and, for each `i` from 7 down to 0,
`h[i] = -(Σ_{j>i} B[i][j]·h[j]) / B[i][i]` when `|B[i][i]| ≥ 1e-9` and
`h[i] = 0` when `|B[i][i]| < 1e-9`, where `B` is the row-echelon form
produced by the Matrix Kernel's elimination. -/
theorem claim3 (A : List (List ℚ)) :
    solveHomogeneous A = some ((List.range 9).map (backSubs (gaussianElimination A))) ∧
      backSubs (gaussianElimination A) 8 = 1 ∧
      ∀ i, i < 8 →
        backSubs (gaussianElimination A) i =
          if mabs (entry (gaussianElimination A) i i) < EPS then 0
          else
            -(bsSum (gaussianElimination A) (backSubs (gaussianElimination A)) i) /
              entry (gaussianElimination A) i i :=
  ⟨rfl, backSubs_slot8 _, fun i hi => backSubs_slot _ i hi⟩

/-- Witness for C3, instantiating the per-slot hypothesis at `i = 3`. -/
theorem claim3_witness :
    solveHomogeneous ([] : List (List ℚ)) =
        some ((List.range 9).map (backSubs (gaussianElimination ([] : List (List ℚ))))) ∧
      (3 < 8) ∧
      backSubs (gaussianElimination ([] : List (List ℚ))) 3 =
        if mabs (entry (gaussianElimination ([] : List (List ℚ))) 3 3) < EPS then 0
        else
          -(bsSum (gaussianElimination ([] : List (List ℚ)))
              (backSubs (gaussianElimination ([] : List (List ℚ)))) 3) /
            entry (gaussianElimination ([] : List (List ℚ))) 3 3 :=
  ⟨(claim3 []).1, by decide, (claim3 []).2.2 3 (by decide)⟩

/-! ### C5: conditional normalization by H[2][2] -/

theorem finishSolve_ite (p1s p2s : List Point) :
    solveHomographyFor4Points p1s p2s =
      if mabs (entry (preH p1s p2s) 2 2) < EPS then some (preH p1s p2s)
      else
        some ((preH p1s p2s).map
          (fun row => row.map (fun v => v / entry (preH p1s p2s) 2 2))) := rfl

/-- C5: for every 4-pair input, the solver's result is the reshaped 9-vector
divided entry-wise by its bottom-right entry exactly when the
pre-normalization `|H[2][2]| ≥ 1e-9` (and then the returned `H[2][2]` is 1),
and is returned unnormalized when `|H[2][2]| < 1e-9`. -/
theorem claim5 (p1s p2s : List Point) :
    (EPS ≤ mabs (entry (preH p1s p2s) 2 2) →
      solveHomographyFor4Points p1s p2s =
          some ((preH p1s p2s).map
            (fun row => row.map (fun v => v / entry (preH p1s p2s) 2 2))) ∧
        entry ((preH p1s p2s).map
          (fun row => row.map (fun v => v / entry (preH p1s p2s) 2 2))) 2 2 = 1) ∧
    (mabs (entry (preH p1s p2s) 2 2) < EPS →
      solveHomographyFor4Points p1s p2s = some (preH p1s p2s)) := by
  constructor
  · intro hge
    have hEPS : (0 : ℚ) < EPS := by norm_num [EPS]
    have hne : entry (preH p1s p2s) 2 2 ≠ 0 := by
      intro h0
      rw [mabs_eq_abs, h0, abs_zero] at hge
      exact absurd hge (not_le.mpr hEPS)
    refine ⟨?_, ?_⟩
    · rw [finishSolve_ite, if_neg (not_lt.mpr hge)]
    · have hmap :
          entry ((preH p1s p2s).map
            (fun row => row.map (fun v => v / entry (preH p1s p2s) 2 2))) 2 2 =
            entry (preH p1s p2s) 2 2 / entry (preH p1s p2s) 2 2 := by
        simp [preH, reshape3, entry]
      rw [hmap, div_self hne]
  · intro hlt
    rw [finishSolve_ite, if_pos hlt]

set_option maxRecDepth 1000000 in
/-- Witness for C5 at a concrete non-degenerate 4-pair input. -/
theorem claim5_witness :
    EPS ≤ mabs (entry (preH [Point.mk 0 0, Point.mk 1 0, Point.mk 0 1, Point.mk 1 1]
        [Point.mk 0 0, Point.mk 1 0, Point.mk 0 1, Point.mk 1 1]) 2 2) ∧
      solveHomographyFor4Points [Point.mk 0 0, Point.mk 1 0, Point.mk 0 1, Point.mk 1 1]
          [Point.mk 0 0, Point.mk 1 0, Point.mk 0 1, Point.mk 1 1] =
        some ((preH [Point.mk 0 0, Point.mk 1 0, Point.mk 0 1, Point.mk 1 1]
            [Point.mk 0 0, Point.mk 1 0, Point.mk 0 1, Point.mk 1 1]).map
          (fun row => row.map
            (fun v => v / entry (preH [Point.mk 0 0, Point.mk 1 0, Point.mk 0 1, Point.mk 1 1]
              [Point.mk 0 0, Point.mk 1 0, Point.mk 0 1, Point.mk 1 1]) 2 2))) :=
  ⟨by with_unfolding_all decide,
    ((claim5 _ _).1 (by with_unfolding_all decide)).1⟩

/-! ### C9 and C6: invert3x3 -/

theorem det3?_some_rows (A : List (List ℚ)) (dv : ℚ) (h : det3? A = some dv) :
    ∀ i, i < 3 → 3 ≤ (A.getD i []).length := by
  simp only [det3?, ent?, Option.bind_eq_bind', Option.bind_eq_some, Option.pure_def,
    Option.some.injEq] at h
  obtain ⟨m00, h00, m01, h01, m02, h02, m10, h10, m11, h11, m12, h12,
    m20, h20, m21, h21, m22, h22, -⟩ := h
  intro i hi
  interval_cases i
  · obtain ⟨hlt, -⟩ := List.getElem?_eq_some_iff.mp h02
    omega
  · obtain ⟨hlt, -⟩ := List.getElem?_eq_some_iff.mp h12
    omega
  · obtain ⟨hlt, -⟩ := List.getElem?_eq_some_iff.mp h22
    omega

/-- C9: `invert3x3` throws (the `.error` outcome) exactly for inputs whose
row count is not 3 or whose first row's length is not 3; the not-invertible
`null` signal occurs only for shape-valid inputs whose nine entries all exist
(every row of length ≥ 3) with cofactor determinant `|det| < 1e-9`. -/
theorem claim9 :
    (∀ A : List (List ℚ), ¬(A.length = 3 ∧ (A.getD 0 []).length = 3) →
      invert3x3 A = .error ()) ∧
    (∀ A : List (List ℚ), A.length = 3 ∧ (A.getD 0 []).length = 3 →
      invert3x3 A ≠ .error ()) ∧
    (∀ A : List (List ℚ), invert3x3 A = .ok none →
      (A.length = 3 ∧ (A.getD 0 []).length = 3) ∧
        (∀ r ∈ A, 3 ≤ r.length) ∧
        ∃ dv, det3? A = some dv ∧ mabs dv < EPS) := by
  refine ⟨?_, ?_, ?_⟩
  · intro A h
    unfold invert3x3
    rw [if_neg h]
  · intro A h
    unfold invert3x3
    rw [if_pos h]
    obtain hdet | ⟨dv, hdet⟩ := Option.eq_none_or_eq_some (det3? A)
    · rw [hdet]
      simp
    · rw [hdet]
      by_cases hlt : mabs dv < EPS <;> simp [hlt]
  · intro A h
    by_cases hshape : A.length = 3 ∧ (A.getD 0 []).length = 3
    · unfold invert3x3 at h
      rw [if_pos hshape] at h
      obtain hdet | ⟨dv, hdet⟩ := Option.eq_none_or_eq_some (det3? A)
      · rw [hdet] at h
        simp at h
      · rw [hdet] at h
        by_cases hlt : mabs dv < EPS
        · refine ⟨hshape, ?_, dv, hdet, hlt⟩
          intro r hr
          obtain ⟨r0, r1, r2, hA⟩ := List.length_eq_three.mp hshape.1
          have hrows := det3?_some_rows _ _ hdet
          rw [hA] at hr
          rcases (by simpa using hr : r = r0 ∨ r = r1 ∨ r = r2) with rfl | rfl | rfl
          · simpa [hA] using hrows 0 (by omega)
          · simpa [hA] using hrows 1 (by omega)
          · simpa [hA] using hrows 2 (by omega)
        · simp [hlt] at h
    · unfold invert3x3 at h
      rw [if_neg hshape] at h
      simp at h

/-- Witness for C9: the empty matrix throws; the all-zero 3×3 matrix does not
throw and yields the not-invertible signal with `det = 0`. -/
theorem claim9_witness :
    (¬(([] : List (List ℚ)).length = 3 ∧ (([] : List (List ℚ)).getD 0 []).length = 3) ∧
      invert3x3 ([] : List (List ℚ)) = .error ()) ∧
    ((([[0, 0, 0], [0, 0, 0], [0, 0, 0]] : List (List ℚ)).length = 3 ∧
        (([[0, 0, 0], [0, 0, 0], [0, 0, 0]] : List (List ℚ)).getD 0 []).length = 3) ∧
      invert3x3 ([[0, 0, 0], [0, 0, 0], [0, 0, 0]] : List (List ℚ)) ≠ .error ()) ∧
    (invert3x3 ([[0, 0, 0], [0, 0, 0], [0, 0, 0]] : List (List ℚ)) = .ok none ∧
      ((([[0, 0, 0], [0, 0, 0], [0, 0, 0]] : List (List ℚ)).length = 3 ∧
          (([[0, 0, 0], [0, 0, 0], [0, 0, 0]] : List (List ℚ)).getD 0 []).length = 3) ∧
        (∀ r ∈ ([[0, 0, 0], [0, 0, 0], [0, 0, 0]] : List (List ℚ)), 3 ≤ r.length) ∧
        ∃ dv, det3? ([[0, 0, 0], [0, 0, 0], [0, 0, 0]] : List (List ℚ)) = some dv ∧
          mabs dv < EPS)) := by
  have hok : invert3x3 ([[0, 0, 0], [0, 0, 0], [0, 0, 0]] : List (List ℚ)) = .ok none := by
    with_unfolding_all rfl
  exact ⟨⟨by decide, claim9.1 [] (by decide)⟩,
    ⟨by decide, claim9.2.1 _ (by decide)⟩,
    hok, claim9.2.2 _ hok⟩

theorem det3?_explicit (m00 m01 m02 m10 m11 m12 m20 m21 m22 : ℚ) :
    det3? [[m00, m01, m02], [m10, m11, m12], [m20, m21, m22]] =
      some (m00 * (m11 * m22 - m21 * m12) - m01 * (m10 * m22 - m12 * m20) +
        m02 * (m10 * m21 - m11 * m20)) := by
  simp [det3?, ent?]

theorem inv3x3Body_explicit (m00 m01 m02 m10 m11 m12 m20 m21 m22 dv : ℚ) :
    inv3x3Body [[m00, m01, m02], [m10, m11, m12], [m20, m21, m22]] dv =
      [[(m11 * m22 - m21 * m12) * (1 / dv), (m02 * m21 - m01 * m22) * (1 / dv),
        (m01 * m12 - m02 * m11) * (1 / dv)],
       [(m12 * m20 - m10 * m22) * (1 / dv), (m00 * m22 - m02 * m20) * (1 / dv),
        (m10 * m02 - m00 * m12) * (1 / dv)],
       [(m10 * m21 - m20 * m11) * (1 / dv), (m20 * m01 - m00 * m21) * (1 / dv),
        (m00 * m11 - m10 * m01) * (1 / dv)]] := by
  simp [inv3x3Body, entry]

set_option maxHeartbeats 1000000 in
/-- C6 (amended): the inversion round trip is exact for 3×3 matrices whose
cofactor determinant satisfies `1e-9 ≤ |det| ≤ 1e9` (the upper bound is
forced: the inverse's determinant is `1/det`, and the inner call signals
not-invertible when `|1/det| < 1e-9`); `invert3x3` on the all-zero matrix
returns the not-invertible signal; and for every genuinely 3×3 input,
`invert3x3` returns the not-invertible signal iff `|det| < 1e-9`. -/
theorem claim6_amended :
    (∀ m00 m01 m02 m10 m11 m12 m20 m21 m22 dv : ℚ,
      det3? [[m00, m01, m02], [m10, m11, m12], [m20, m21, m22]] = some dv →
      EPS ≤ mabs dv → mabs dv ≤ 1000000000 →
      invert3x3 [[m00, m01, m02], [m10, m11, m12], [m20, m21, m22]] =
          .ok (some (inv3x3Body [[m00, m01, m02], [m10, m11, m12], [m20, m21, m22]] dv)) ∧
        invert3x3 (inv3x3Body [[m00, m01, m02], [m10, m11, m12], [m20, m21, m22]] dv) =
          .ok (some [[m00, m01, m02], [m10, m11, m12], [m20, m21, m22]])) ∧
    invert3x3 ([[0, 0, 0], [0, 0, 0], [0, 0, 0]] : List (List ℚ)) = .ok none ∧
    (∀ m00 m01 m02 m10 m11 m12 m20 m21 m22 dv : ℚ,
      det3? [[m00, m01, m02], [m10, m11, m12], [m20, m21, m22]] = some dv →
      (invert3x3 [[m00, m01, m02], [m10, m11, m12], [m20, m21, m22]] = .ok none ↔
        mabs dv < EPS)) := by
  have hEPS0 : (0 : ℚ) < EPS := by norm_num [EPS]
  refine ⟨?_, by with_unfolding_all rfl, ?_⟩
  · intro m00 m01 m02 m10 m11 m12 m20 m21 m22 dv hdet hlo hhi
    have hdv : m00 * (m11 * m22 - m21 * m12) - m01 * (m10 * m22 - m12 * m20) +
        m02 * (m10 * m21 - m11 * m20) = dv :=
      Option.some.inj ((det3?_explicit m00 m01 m02 m10 m11 m12 m20 m21 m22).symm.trans hdet)
    have hne : dv ≠ 0 := by
      intro h0
      rw [mabs_eq_abs, h0, abs_zero] at hlo
      exact absurd hlo (not_le.mpr hEPS0)
    have habs : (0 : ℚ) < |dv| := abs_pos.mpr hne
    constructor
    · unfold invert3x3
      rw [if_pos ⟨rfl, rfl⟩]
      simp only [det3?_explicit, hdv]
      rw [if_neg (not_lt.mpr hlo)]
    · have hdetB : det3? (inv3x3Body [[m00, m01, m02], [m10, m11, m12], [m20, m21, m22]] dv) =
          some (1 / dv) := by
        rw [inv3x3Body_explicit, det3?_explicit]
        congr 1
        field_simp
        rw [← hdv]
        ring
      have hguard : ¬ mabs (1 / dv) < EPS := by
        rw [mabs_eq_abs, not_lt, abs_div, abs_one, le_div_iff₀ habs]
        calc EPS * |dv| ≤ EPS * 1000000000 := by
              rw [← mabs_eq_abs]
              exact mul_le_mul_of_nonneg_left hhi (le_of_lt hEPS0)
          _ = 1 := by norm_num [EPS]
      unfold invert3x3
      rw [if_pos ⟨rfl, rfl⟩]
      simp only [hdetB]
      rw [if_neg hguard]
      simp only [Except.ok.injEq, Option.some.injEq]
      rw [inv3x3Body_explicit m00 m01 m02 m10 m11 m12 m20 m21 m22 dv,
        inv3x3Body_explicit]
      have hinv : (1 : ℚ) / (1 / dv) = dv := by
        field_simp
      rw [hinv]
      simp only [List.cons.injEq, and_true]
      and_intros <;> (field_simp; rw [← hdv]; ring)
  · intro m00 m01 m02 m10 m11 m12 m20 m21 m22 dv hdet
    have hdv : m00 * (m11 * m22 - m21 * m12) - m01 * (m10 * m22 - m12 * m20) +
        m02 * (m10 * m21 - m11 * m20) = dv :=
      Option.some.inj ((det3?_explicit m00 m01 m02 m10 m11 m12 m20 m21 m22).symm.trans hdet)
    unfold invert3x3
    rw [if_pos ⟨rfl, rfl⟩]
    simp only [det3?_explicit, hdv]
    by_cases hlt : mabs dv < EPS
    · rw [if_pos hlt]
      simp [hlt]
    · rw [if_neg hlt]
      simp [hlt]

/-- Witness for C6 (amended), instantiating the round trip at the identity. -/
theorem claim6_witness :
    det3? ([[1, 0, 0], [0, 1, 0], [0, 0, 1]] : List (List ℚ)) = some 1 ∧
      EPS ≤ mabs 1 ∧ mabs (1 : ℚ) ≤ 1000000000 ∧
      invert3x3 ([[1, 0, 0], [0, 1, 0], [0, 0, 1]] : List (List ℚ)) =
          .ok (some (inv3x3Body [[1, 0, 0], [0, 1, 0], [0, 0, 1]] 1)) ∧
      invert3x3 (inv3x3Body [[1, 0, 0], [0, 1, 0], [0, 0, 1]] 1) =
        .ok (some [[1, 0, 0], [0, 1, 0], [0, 0, 1]]) := by
  have h1 : det3? ([[1, 0, 0], [0, 1, 0], [0, 0, 1]] : List (List ℚ)) = some 1 := by
    with_unfolding_all rfl
  have h2 : EPS ≤ mabs 1 := by norm_num [EPS, mabs]
  have h3 : mabs (1 : ℚ) ≤ 1000000000 := by norm_num [mabs]
  obtain ⟨ha, hb⟩ := claim6_amended.1 1 0 0 0 1 0 0 0 1 1 h1 h2 h3
  exact ⟨h1, h2, h3, ha, hb⟩

/-- Counterexample to C6 as stated: `A = diag(1e10, 1, 1)` is invertible
(`invert3x3` succeeds on it), yet the inner call of the round trip returns
the not-invertible signal, because the computed inverse's determinant is
`1e-10 < 1e-9`. -/
theorem claim6_counterexample :
    invert3x3 ([[10000000000, 0, 0], [0, 1, 0], [0, 0, 1]] : List (List ℚ)) =
        .ok (some [[1 / 10000000000, 0, 0], [0, 1, 0], [0, 0, 1]]) ∧
      invert3x3 ([[1 / 10000000000, 0, 0], [0, 1, 0], [0, 0, 1]] : List (List ℚ)) =
        .ok none := by
  constructor <;> with_unfolding_all rfl

/-! ### C1: the Warping Engine raster -/

/-- C1 (amended): whenever inversion succeeds, the split sliders and the
base image have no effect on the raster — `putImageData` is unaffected by
the canvas clipping region, so the transformed buffer replaces every canvas
pixel: (i) each pixel `(x, y)` with `x < w2`, `y < h2` holds exactly the
transformed-buffer value (bilinear sample when the inverse-mapped source
coordinate is in bounds, transparent black `0` otherwise); (ii) the raster
is identical for any two choices of base image and split values; (iii) a
pixel whose inverse-mapped source coordinate is out of bounds (or
non-finite) holds transparent black `0`, never the base value. -/
theorem claim1_amended (matrix : List (List ℚ)) (srcW srcH : ℕ)
    (srcPx : ℕ → ℕ → Fin 4 → ℕ) (dstW dstH : ℕ)
    (basePx basePx' : ℕ → ℕ → Fin 4 → ℕ) (splitX splitY splitX' splitY' : ℚ)
    (inv : List (List ℚ)) (hinv : invert3x3 matrix = .ok (some inv)) :
    (∀ x y ch, x < dstW → y < dstH →
      Option.map (fun o => o x y ch)
          (drawTransformedImage matrix srcW srcH srcPx dstW dstH basePx splitX splitY) =
        some (transformedPixel inv srcW srcH srcPx x y ch)) ∧
    (∀ x y ch, x < dstW → y < dstH →
      Option.map (fun o => o x y ch)
          (drawTransformedImage matrix srcW srcH srcPx dstW dstH basePx splitX splitY) =
        Option.map (fun o => o x y ch)
          (drawTransformedImage matrix srcW srcH srcPx dstW dstH basePx' splitX' splitY')) ∧
    (∀ x y ch, x < dstW → y < dstH → srcOutOfBounds inv srcW srcH x y →
      Option.map (fun o => o x y ch)
          (drawTransformedImage matrix srcW srcH srcPx dstW dstH basePx splitX splitY) =
        some 0) := by
  have hdraw : ∀ (bp : ℕ → ℕ → Fin 4 → ℕ) (sx sy : ℚ),
      drawTransformedImage matrix srcW srcH srcPx dstW dstH bp sx sy =
      some (fun x y ch =>
        if x < dstW ∧ y < dstH then
          transformedPixel inv srcW srcH srcPx x y ch
        else bp x y ch) := by
    intro bp sx sy
    unfold drawTransformedImage
    rw [hinv]
  refine ⟨?_, ?_, ?_⟩
  · intro x y ch hx hy
    have hxy : x < dstW ∧ y < dstH := ⟨hx, hy⟩
    rw [hdraw, Option.map_some']
    simp only [if_pos hxy]
  · intro x y ch hx hy
    have hxy : x < dstW ∧ y < dstH := ⟨hx, hy⟩
    rw [hdraw, hdraw, Option.map_some', Option.map_some']
    simp only [if_pos hxy]
  · intro x y ch hx hy hoob
    have hxy : x < dstW ∧ y < dstH := ⟨hx, hy⟩
    rw [hdraw, Option.map_some']
    simp only [if_pos hxy]
    unfold transformedPixel
    obtain hsc | ⟨⟨sx, sy⟩, hsc⟩ := Option.eq_none_or_eq_some (sourceCoord inv x y)
    · rw [hsc]
    · rw [hsc]
      simp only [if_neg (hoob sx sy hsc)]

set_option maxRecDepth 1000000 in
/-- Witness for C1 (amended): the identity homography on a 1×1 source of
constant value 7 and a 2×1 destination with base value 9, at `splitX = 0`:
pixel `(0, 0)` holds the transformed-buffer value, which evaluates to the
bilinear sample 7 — not the base value. -/
theorem claim1_witness :
    invert3x3 ([[1, 0, 0], [0, 1, 0], [0, 0, 1]] : List (List ℚ)) =
        .ok (some [[1, 0, 0], [0, 1, 0], [0, 0, 1]]) ∧
      Option.map (fun o => o 0 0 (0 : Fin 4))
          (drawTransformedImage [[1, 0, 0], [0, 1, 0], [0, 0, 1]] 1 1
            (fun _ _ _ => 7) 2 1 (fun _ _ _ => 9) 0 0) =
        some 7 := by
  have hinv : invert3x3 ([[1, 0, 0], [0, 1, 0], [0, 0, 1]] : List (List ℚ)) =
      .ok (some [[1, 0, 0], [0, 1, 0], [0, 0, 1]]) := by
    with_unfolding_all rfl
  refine ⟨hinv, ?_⟩
  have h1 := (claim1_amended [[1, 0, 0], [0, 1, 0], [0, 0, 1]] 1 1 (fun _ _ _ => 7)
      2 1 (fun _ _ _ => 9) (fun _ _ _ => 9) 0 0 0 0
      [[1, 0, 0], [0, 1, 0], [0, 0, 1]] hinv).1 0 0 0 (by decide) (by decide)
  rw [h1]
  with_unfolding_all rfl

set_option maxRecDepth 1000000 in
/-- Counterexample to C1 as stated: under the identity homography, with a
1×1 source of constant value 7, a 2×1 destination whose base raster is
constant 9, and `splitX = splitY = 0`, both destination pixels lie outside
the split rectangle, yet neither keeps the base value: `putImageData` is
unaffected by the canvas clip, so pixel `(0, 0)` holds the bilinear sample 7
(so the raster at `splitX = 0` is not bit-identical to the base) and pixel
`(1, 0)`, whose inverse-mapped source coordinate `(1, 0)` is out of bounds,
holds transparent black 0. -/
theorem claim1_counterexample :
    ¬ inSplitRect 0 0 2 1 0 0 ∧
    Option.map (fun o => o 0 0 (0 : Fin 4))
        (drawTransformedImage [[1, 0, 0], [0, 1, 0], [0, 0, 1]] 1 1
          (fun _ _ _ => 7) 2 1 (fun _ _ _ => 9) 0 0) =
      some 7 ∧
    Option.map (fun o => o 0 0 (0 : Fin 4))
        (drawTransformedImage [[1, 0, 0], [0, 1, 0], [0, 0, 1]] 1 1
          (fun _ _ _ => 7) 2 1 (fun _ _ _ => 9) 0 0) ≠
      some 9 ∧
    srcOutOfBounds [[1, 0, 0], [0, 1, 0], [0, 0, 1]] 1 1 1 0 ∧
    Option.map (fun o => o 1 0 (0 : Fin 4))
        (drawTransformedImage [[1, 0, 0], [0, 1, 0], [0, 0, 1]] 1 1
          (fun _ _ _ => 7) 2 1 (fun _ _ _ => 9) 0 0) =
      some 0 := by
  refine ⟨?_, ?_, ?_, ?_, ?_⟩
  · intro hc
    norm_num [inSplitRect] at hc
  · with_unfolding_all rfl
  · intro hc
    have h0 : (some (7 : ℕ) : Option ℕ) = some 9 := by
      rw [← hc]
      with_unfolding_all rfl
    simp at h0
  · intro sx sy hsc
    have hval : sourceCoord [[1, 0, 0], [0, 1, 0], [0, 0, 1]] 1 0 = some (1, 0) := by
      with_unfolding_all rfl
    rw [hval] at hsc
    obtain ⟨rfl, rfl⟩ : sx = 1 ∧ sy = 0 :=
      ⟨(congrArg Prod.fst (Option.some.inj hsc)).symm,
        (congrArg Prod.snd (Option.some.inj hsc)).symm⟩
    intro hb
    have := hb.2.1
    norm_num at this
  · with_unfolding_all rfl

/-! ### C2: the RANSAC selection logic -/

theorem ransacStep_snd_le (p1s p2s : List Point) (st : Option (List (List ℚ)) × ℤ)
    (idxs : List ℕ) : st.2 ≤ (ransacStep p1s p2s st idxs).2 := by
  unfold ransacStep
  obtain hs | ⟨H, hs⟩ := Option.eq_none_or_eq_some
    (solveHomographyFor4Points (sampleOf p1s idxs) (sampleOf p2s idxs))
  · rw [hs]
  · rw [hs]
    dsimp only
    split_ifs with h
    · exact le_of_lt h
    · exact le_refl _

theorem ransacStep_good (p1s p2s : List Point) (univ : List (List ℕ))
    (st : Option (List (List ℚ)) × ℤ) (idxs : List ℕ)
    (hst : GoodSt p1s p2s univ st) (hmem : idxs ∈ univ) :
    GoodSt p1s p2s univ (ransacStep p1s p2s st idxs) := by
  unfold ransacStep
  obtain hs | ⟨H, hs⟩ := Option.eq_none_or_eq_some
    (solveHomographyFor4Points (sampleOf p1s idxs) (sampleOf p2s idxs))
  · rw [hs]
    exact hst
  · rw [hs]
    dsimp only
    by_cases hgt : (countInliers H p1s p2s : ℤ) > st.2
    · rw [if_pos hgt]
      constructor
      · intro h
        simp at h
      · intro H' hH'
        cases Option.some.inj hH'
        exact ⟨idxs, hmem, hs, rfl⟩
    · rw [if_neg hgt]
      exact hst

theorem ransacFold_good (p1s p2s : List Point) :
    ∀ (samples univ : List (List ℕ)) (st : Option (List (List ℚ)) × ℤ),
      GoodSt p1s p2s univ st → (∀ s ∈ samples, s ∈ univ) →
      GoodSt p1s p2s univ (samples.foldl (ransacStep p1s p2s) st)
  | [], _, _, hst, _ => hst
  | s :: rest, univ, st, hst, hmem => by
    simp only [List.foldl_cons]
    exact ransacFold_good p1s p2s rest univ _
      (ransacStep_good p1s p2s univ st s hst (hmem s (by simp)))
      (fun t ht => hmem t (by simp [ht]))

theorem ransacFold_score_mono (p1s p2s : List Point) :
    ∀ (samples : List (List ℕ)) (st : Option (List (List ℚ)) × ℤ),
      st.2 ≤ (samples.foldl (ransacStep p1s p2s) st).2
  | [], _ => le_refl _
  | s :: rest, st => by
    simp only [List.foldl_cons]
    exact le_trans (ransacStep_snd_le p1s p2s st s)
      (ransacFold_score_mono p1s p2s rest _)

theorem ransacFold_ub (p1s p2s : List Point) :
    ∀ (samples : List (List ℕ)) (st : Option (List (List ℚ)) × ℤ),
      ∀ idxs ∈ samples, ∀ H : List (List ℚ),
        solveHomographyFor4Points (sampleOf p1s idxs) (sampleOf p2s idxs) = some H →
        (countInliers H p1s p2s : ℤ) ≤ (samples.foldl (ransacStep p1s p2s) st).2
  | [], _ => by
    intro idxs h
    simp at h
  | s :: rest, st => by
    intro idxs hmem H hH
    simp only [List.foldl_cons]
    rcases List.mem_cons.mp hmem with rfl | hmem'
    · have h1 : (countInliers H p1s p2s : ℤ) ≤ (ransacStep p1s p2s st idxs).2 := by
        unfold ransacStep
        rw [hH]
        dsimp only
        by_cases hgt : (countInliers H p1s p2s : ℤ) > st.2
        · rw [if_pos hgt]
        · rw [if_neg hgt]
          exact le_of_not_lt hgt
      exact le_trans h1 (ransacFold_score_mono p1s p2s rest _)
    · exact ransacFold_ub p1s p2s rest _ idxs hmem' H hH

/-- C2: on the RANSAC path (more than 4 pairs, any 1000 sample draws),
`calculateHomography` returns `null` iff the final best inlier count is
below 4; any returned matrix is exactly the 4-point solver's output for one
of the draws, whose inlier count equals the best score (no re-fit on the
inlier set); and the best score is an upper bound on the inlier count of
every fitted candidate. -/
theorem claim2 (p1s p2s : List Point) (samples : List (List ℕ))
    (h4 : 4 < p1s.length) (hlen : p1s.length = p2s.length)
    (hs : samples.length = 1000) :
    (calculateHomography p1s p2s samples = none ↔
      (ransacFold p1s p2s samples).2 < 4) ∧
    (∀ H, calculateHomography p1s p2s samples = some H →
      ∃ idxs ∈ samples,
        solveHomographyFor4Points (sampleOf p1s idxs) (sampleOf p2s idxs) = some H ∧
        (countInliers H p1s p2s : ℤ) = (ransacFold p1s p2s samples).2) ∧
    (∀ idxs ∈ samples, ∀ H : List (List ℚ),
      solveHomographyFor4Points (sampleOf p1s idxs) (sampleOf p2s idxs) = some H →
      (countInliers H p1s p2s : ℤ) ≤ (ransacFold p1s p2s samples).2) := by
  have hgood : GoodSt p1s p2s samples (ransacFold p1s p2s samples) :=
    ransacFold_good p1s p2s samples samples (none, -1)
      ⟨fun _ => rfl, fun H h => by simp at h⟩ (fun s hs' => hs')
  have hcalc : calculateHomography p1s p2s samples =
      if (ransacFold p1s p2s samples).2 < 4 then none
      else (ransacFold p1s p2s samples).1 := by
    unfold calculateHomography
    rw [if_neg (by push_neg; exact ⟨by omega, hlen⟩), if_neg (by omega)]
  refine ⟨?_, ?_, fun idxs hmem H hH => ransacFold_ub p1s p2s samples (none, -1) idxs hmem H hH⟩
  · rw [hcalc]
    constructor
    · intro h
      by_contra hnl
      rw [if_neg hnl] at h
      have := hgood.1 h
      omega
    · intro h
      rw [if_pos h]
  · intro H h
    rw [hcalc] at h
    by_cases hlt : (ransacFold p1s p2s samples).2 < 4
    · rw [if_pos hlt] at h
      exact absurd h (by simp)
    · rw [if_neg hlt] at h
      exact hgood.2 H h

/-- Witness for C2 at a 5-pair input with 1000 identical index draws. -/
theorem claim2_witness :
    4 < ([Point.mk 0 0, Point.mk 1 0, Point.mk 0 1, Point.mk 1 1,
        Point.mk 2 2] : List Point).length ∧
      (List.replicate 1000 ([0, 1, 2, 3] : List ℕ)).length = 1000 ∧
      (calculateHomography
          [Point.mk 0 0, Point.mk 1 0, Point.mk 0 1, Point.mk 1 1, Point.mk 2 2]
          [Point.mk 0 0, Point.mk 1 0, Point.mk 0 1, Point.mk 1 1, Point.mk 2 2]
          (List.replicate 1000 [0, 1, 2, 3]) = none ↔
        (ransacFold
          [Point.mk 0 0, Point.mk 1 0, Point.mk 0 1, Point.mk 1 1, Point.mk 2 2]
          [Point.mk 0 0, Point.mk 1 0, Point.mk 0 1, Point.mk 1 1, Point.mk 2 2]
          (List.replicate 1000 [0, 1, 2, 3])).2 < 4) :=
  ⟨by decide, List.length_replicate 1000 [0, 1, 2, 3],
    (claim2 _ _ _ (by decide) rfl (List.length_replicate 1000 [0, 1, 2, 3])).1⟩

/-! ### C8: elimination invariants -/

theorem entry_swapRows (B : List (List ℚ)) (a b i j : ℕ) :
    entry (swapRows B a b) i j =
      if b = i ∧ i < B.length then entry B a j
      else if a = i ∧ i < B.length then entry B b j
      else entry B i j := by
  unfold entry
  rw [swapRows_getD]
  split_ifs <;> rfl

theorem entry_elimBelow_le (B : List (List ℚ)) (h k i j : ℕ) (hih : i ≤ h) :
    entry (elimBelow B h k) i j = entry B i j := by
  unfold entry
  rw [getD_elimBelow]
  by_cases hlen : i < B.length
  · rw [if_pos hlen, if_neg (by omega)]
  · rw [if_neg hlen, getD_oob ([] : List ℚ) _ _ (by omega)]

theorem entry_elimBelow_ltk (B : List (List ℚ)) (h k i j : ℕ) (hjk : j < k) (hhi : h < i) :
    entry (elimBelow B h k) i j = entry B i j := by
  unfold entry
  rw [getD_elimBelow]
  by_cases hlen : i < B.length
  · rw [if_pos hlen, if_pos hhi]
    by_cases hjl : j < (B.getD i []).length
    · rw [getD_elimRow _ _ _ _ hjl, if_pos hjk]
    · rw [getD_oob _ _ _ (by rw [length_elimRow]; omega), getD_oob _ _ _ (by omega)]
  · rw [if_neg hlen, getD_oob ([] : List ℚ) _ _ (by omega)]

theorem entry_elimBelow_eqk (B : List (List ℚ)) (h k i : ℕ) (hhi : h < i) :
    entry (elimBelow B h k) i k = 0 := by
  unfold entry
  rw [getD_elimBelow]
  by_cases hlen : i < B.length
  · rw [if_pos hlen, if_pos hhi]
    by_cases hkl : k < (B.getD i []).length
    · rw [getD_elimRow _ _ _ _ hkl, if_neg (by omega), if_pos rfl]
    · rw [getD_oob _ _ _ (by rw [length_elimRow]; omega)]
  · rw [if_neg hlen]
    simp

theorem pivotFold_spec (B : List (List ℚ)) (k : ℕ) :
    ∀ (l : List ℕ) (init : ℕ),
      (l.foldl (fun imax i => if mabs (entry B i k) > mabs (entry B imax k) then i else imax)
          init = init ∨
        l.foldl (fun imax i => if mabs (entry B i k) > mabs (entry B imax k) then i else imax)
          init ∈ l) ∧
      mabs (entry B init k) ≤
        mabs (entry B
          (l.foldl (fun imax i => if mabs (entry B i k) > mabs (entry B imax k) then i else imax)
            init) k) ∧
      ∀ a ∈ l, mabs (entry B a k) ≤
        mabs (entry B
          (l.foldl (fun imax i => if mabs (entry B i k) > mabs (entry B imax k) then i else imax)
            init) k)
  | [], init => ⟨Or.inl rfl, le_refl _, by simp⟩
  | a :: l, init => by
    simp only [List.foldl_cons]
    obtain ⟨hm, hinit, hall⟩ :=
      pivotFold_spec B k l (if mabs (entry B a k) > mabs (entry B init k) then a else init)
    refine ⟨?_, ?_, ?_⟩
    · rcases hm with hm | hm
      · rw [hm]
        split_ifs with hgt
        · exact Or.inr (by simp)
        · exact Or.inl rfl
      · exact Or.inr (by simp [hm])
    · refine le_trans ?_ hinit
      split_ifs with hgt
      · exact le_of_lt hgt
      · exact le_refl _
    · intro b hb
      rcases List.mem_cons.mp hb with rfl | hb'
      · refine le_trans ?_ hinit
        split_ifs with hgt
        · exact le_refl _
        · exact le_of_not_lt hgt
      · exact hall b hb'

theorem findPivotRow_spec (B : List (List ℚ)) (h k m : ℕ) (hhm : h < m) :
    h ≤ findPivotRow B h k m ∧ findPivotRow B h k m < m ∧
      ∀ i, h ≤ i → i < m → mabs (entry B i k) ≤ mabs (entry B (findPivotRow B h k m) k) := by
  unfold findPivotRow
  obtain ⟨hm, hinit, hall⟩ := pivotFold_spec B k (List.range' (h + 1) (m - (h + 1))) h
  have hrange : ∀ a ∈ List.range' (h + 1) (m - (h + 1)), h + 1 ≤ a ∧ a < m := by
    intro a ha
    rw [List.mem_range'_1] at ha
    omega
  refine ⟨?_, ?_, ?_⟩
  · rcases hm with hm | hm
    · rw [hm]
    · have := (hrange _ hm).1
      omega
  · rcases hm with hm | hm
    · rw [hm]
      exact hhm
    · exact (hrange _ hm).2
  · intro i hi him
    rcases eq_or_lt_of_le hi with rfl | hgt
    · exact hinit
    · exact hall i (List.mem_range'_1.mpr ⟨by omega, by omega⟩)

theorem findPivotRow_ge (B : List (List ℚ)) (h k m : ℕ) :
    h ≤ findPivotRow B h k m := by
  unfold findPivotRow
  obtain ⟨hm, -, -⟩ := pivotFold_spec B k (List.range' (h + 1) (m - (h + 1))) h
  rcases hm with hm | hm
  · rw [hm]
  · rw [List.mem_range'_1] at hm
    omega

theorem geLoop_shape (m n : ℕ) :
    ∀ (fuel : ℕ) (B : List (List ℚ)) (h k : ℕ), B.length = m → RowLen B n →
      (geLoop m n B h k fuel).length = m ∧ RowLen (geLoop m n B h k fuel) n
  | 0, B, _, _, hm, hR => ⟨hm, hR⟩
  | fuel + 1, B, h, k, hm, hR => by
    simp only [geLoop]
    by_cases hc : h < m ∧ k < n
    · rw [if_pos hc]
      by_cases hp : mabs (entry B (findPivotRow B h k m) k) < EPS
      · rw [if_pos hp]
        exact geLoop_shape m n fuel B h (k + 1) hm hR
      · rw [if_neg hp]
        have himax := (findPivotRow_spec B h k m hc.1).2.1
        have hswlen : (swapRows B h (findPivotRow B h k m)).length = m := by
          rw [length_swapRows, hm]
        have hswR : RowLen (swapRows B h (findPivotRow B h k m)) n := by
          intro i hi
          rw [hswlen, ← hm] at hi
          rw [swapRows_getD]
          split_ifs with h1 h2
          · exact hR h (by omega)
          · exact hR _ (by omega)
          · exact hR i hi
        have heblen : (elimBelow (swapRows B h (findPivotRow B h k m)) h k).length = m := by
          rw [length_elimBelow, hswlen]
        have hebR : RowLen (elimBelow (swapRows B h (findPivotRow B h k m)) h k) n := by
          intro i hi
          rw [heblen] at hi
          rw [getD_elimBelow, if_pos (by rw [hswlen]; exact hi)]
          split_ifs with h1
          · rw [length_elimRow]
            exact hswR i (by rw [hswlen]; exact hi)
          · exact hswR i (by rw [hswlen]; exact hi)
        exact geLoop_shape m n fuel _ (h + 1) (k + 1) heblen hebR
    · rw [if_neg hc]
      exact ⟨hm, hR⟩

theorem geLoop_frozen (m n : ℕ) :
    ∀ (fuel : ℕ) (B : List (List ℚ)) (h k i : ℕ), i < h →
      (geLoop m n B h k fuel).getD i [] = B.getD i []
  | 0, _, _, _, _, _ => rfl
  | fuel + 1, B, h, k, i, hi => by
    simp only [geLoop]
    by_cases hc : h < m ∧ k < n
    · rw [if_pos hc]
      by_cases hp : mabs (entry B (findPivotRow B h k m) k) < EPS
      · rw [if_pos hp]
        exact geLoop_frozen m n fuel B h (k + 1) i hi
      · rw [if_neg hp]
        rw [geLoop_frozen m n fuel _ (h + 1) (k + 1) i (by omega)]
        have himax := findPivotRow_ge B h k m
        rw [getD_elimBelow, length_swapRows]
        by_cases hlen : i < B.length
        · rw [if_pos hlen, if_neg (by omega : ¬ h < i), swapRows_getD,
            if_neg (by rintro ⟨he, -⟩; omega), if_neg (by rintro ⟨he, -⟩; omega)]
        · rw [if_neg hlen, getD_oob ([] : List ℚ) _ _ (by omega)]
    · rw [if_neg hc]

theorem geLoop_smallcol (m n : ℕ) :
    ∀ (fuel : ℕ) (B : List (List ℚ)) (h k c : ℕ), c < k →
      (∀ i, h ≤ i → mabs (entry B i c) < EPS) →
      ∀ i, h ≤ i → mabs (entry (geLoop m n B h k fuel) i c) < EPS
  | 0, _, _, _, _, _, hsmall, i, hi => hsmall i hi
  | fuel + 1, B, h, k, c, hck, hsmall, i, hi => by
    simp only [geLoop]
    by_cases hc : h < m ∧ k < n
    · rw [if_pos hc]
      by_cases hp : mabs (entry B (findPivotRow B h k m) k) < EPS
      · rw [if_pos hp]
        exact geLoop_smallcol m n fuel B h (k + 1) c (by omega) hsmall i hi
      · rw [if_neg hp]
        have himax := findPivotRow_ge B h k m
        have hsw : ∀ i', h ≤ i' →
            mabs (entry (swapRows B h (findPivotRow B h k m)) i' c) < EPS := by
          intro i' hi'
          rw [entry_swapRows]
          split_ifs with h1 h2
          · exact hsmall h (le_refl h)
          · exact hsmall _ himax
          · exact hsmall i' hi'
        have heb : ∀ i', h ≤ i' →
            mabs (entry (elimBelow (swapRows B h (findPivotRow B h k m)) h k) i' c) < EPS := by
          intro i' hi'
          by_cases hgt : h < i'
          · rw [entry_elimBelow_ltk _ _ _ _ _ (by omega) hgt]
            exact hsw i' hi'
          · rw [entry_elimBelow_le _ _ _ _ _ (by omega)]
            exact hsw i' hi'
        by_cases hgt : h < i
        · exact geLoop_smallcol m n fuel _ (h + 1) (k + 1) c (by omega)
            (fun i' hi' => heb i' (by omega)) i (by omega)
        · have hfrozen := geLoop_frozen m n fuel
            (elimBelow (swapRows B h (findPivotRow B h k m)) h k) (h + 1) (k + 1) i (by omega)
          unfold entry
          rw [hfrozen]
          exact heb i hi
    · rw [if_neg hc]
      exact hsmall i hi

theorem dotv_nil (v : ℕ → ℚ) : dotv [] v = 0 := by
  simp [dotv]

theorem orth_swapRows (B : List (List ℚ)) (a b : ℕ) (v : ℕ → ℚ) (ho : orth B v) :
    orth (swapRows B a b) v := by
  intro i
  rw [swapRows_getD]
  split_ifs with h1 h2
  · exact ho a
  · exact ho b
  · exact ho i

theorem dotv_elimRow (p r : List ℚ) (k : ℕ) (v : ℕ → ℚ)
    (hpk : p.getD k 0 ≠ 0) (hplen : p.length = r.length)
    (hpzero : ∀ j, j < k → p.getD j 0 = 0) :
    dotv (elimRow p k r) v = dotv r v - r.getD k 0 / p.getD k 0 * dotv p v := by
  unfold dotv
  rw [length_elimRow]
  have hterm : ∀ j ∈ Finset.range r.length,
      (elimRow p k r).getD j 0 * v j =
        r.getD j 0 * v j - r.getD k 0 / p.getD k 0 * (p.getD j 0 * v j) := by
    intro j hj
    rw [Finset.mem_range] at hj
    rw [getD_elimRow _ _ _ _ hj]
    by_cases h1 : j < k
    · rw [if_pos h1, hpzero j h1]
      ring
    · by_cases h2 : j = k
      · rw [if_neg h1, if_pos h2, h2]
        have hcancel : r.getD k 0 / p.getD k 0 * (p.getD k 0 * v k) = r.getD k 0 * v k := by
          rw [← mul_assoc, div_mul_cancel₀ _ hpk]
        rw [hcancel, sub_self, zero_mul]
      · rw [if_neg h1, if_neg h2]
        ring
  rw [Finset.sum_congr rfl hterm, Finset.sum_sub_distrib, ← Finset.mul_sum, hplen]

theorem rowLen_swapRows (B : List (List ℚ)) (a b n : ℕ) (ha : a < B.length)
    (hb : b < B.length) (hR : RowLen B n) : RowLen (swapRows B a b) n := by
  intro i hi
  rw [length_swapRows] at hi
  rw [swapRows_getD]
  split_ifs with h1 h2
  · exact hR a ha
  · exact hR b hb
  · exact hR i hi

theorem rowLen_elimBelow (B : List (List ℚ)) (h k n : ℕ) (hR : RowLen B n) :
    RowLen (elimBelow B h k) n := by
  intro i hi
  rw [length_elimBelow] at hi
  rw [getD_elimBelow, if_pos hi]
  split_ifs with h1
  · rw [length_elimRow]
    exact hR i hi
  · exact hR i hi

/-- One non-skipped elimination step (swap the pivot row into place, then
eliminate below it) preserves the shape, extends the zero region and the
settled triangle, and preserves orthogonality to any null-space vector. -/
theorem pivotStep_inv (B : List (List ℚ)) (h k m n : ℕ) (v : ℕ → ℚ)
    (hm : B.length = m) (hR : RowLen B n) (hhk : h ≤ k)
    (hc : h < m ∧ k < n)
    (hp : ¬ mabs (entry B (findPivotRow B h k m) k) < EPS)
    (hZ : ZeroBelow B h k) (hS : SettledTri B h) (ho : orth B v) :
    (elimBelow (swapRows B h (findPivotRow B h k m)) h k).length = m ∧
      RowLen (elimBelow (swapRows B h (findPivotRow B h k m)) h k) n ∧
      ZeroBelow (elimBelow (swapRows B h (findPivotRow B h k m)) h k) (h + 1) (k + 1) ∧
      SettledTri (elimBelow (swapRows B h (findPivotRow B h k m)) h k) (h + 1) ∧
      orth (elimBelow (swapRows B h (findPivotRow B h k m)) h k) v := by
  set imax := findPivotRow B h k m with himax_def
  have hge : h ≤ imax := findPivotRow_ge B h k m
  have hlt : imax < m := (findPivotRow_spec B h k m hc.1).2.1
  set B1 := swapRows B h imax with hB1
  have hB1len : B1.length = m := by
    rw [hB1, length_swapRows, hm]
  have hB1R : RowLen B1 n :=
    rowLen_swapRows B h imax n (by omega) (by omega) hR
  have hB1row : ∀ j, entry B1 h j = entry B imax j := by
    intro j
    rw [hB1, entry_swapRows]
    split_ifs with h1 h2
    · rw [h1.1]
    · rfl
    · exact absurd ⟨rfl, by omega⟩ h2
  have hB1rows_hi : ∀ i j, h ≤ i → (∀ i', h ≤ i' → entry B i' j = 0) → entry B1 i j = 0 := by
    intro i j hi hall
    rw [hB1, entry_swapRows]
    split_ifs with h1 h2
    · exact hall h (le_refl h)
    · exact hall imax hge
    · exact hall i hi
  refine ⟨?_, rowLen_elimBelow B1 h k n hB1R, ?_, ?_, ?_⟩
  · rw [length_elimBelow, hB1len]
  · intro i j hi hj
    by_cases hjk : j < k
    · rw [entry_elimBelow_ltk _ _ _ _ _ hjk (by omega)]
      exact hB1rows_hi i j (by omega) (fun i' hi' => hZ i' j hi' hjk)
    · have hjk' : j = k := by omega
      subst hjk'
      exact entry_elimBelow_eqk B1 h j i (by omega)
  · intro i j hi hj
    by_cases hih : i < h
    · rw [entry_elimBelow_le _ _ _ _ _ (by omega), hB1, entry_swapRows,
        if_neg (by rintro ⟨he, -⟩; omega), if_neg (by rintro ⟨he, -⟩; omega)]
      exact hS i j hih hj
    · have hieq : i = h := by omega
      subst hieq
      rw [entry_elimBelow_le _ _ _ _ _ (le_refl i), hB1row]
      exact hZ imax j hge (by omega)
  · have ho1 : orth B1 v := orth_swapRows B h imax v ho
    intro i
    rw [getD_elimBelow]
    by_cases hlen : i < B1.length
    · rw [if_pos hlen]
      by_cases hgt : h < i
      · rw [if_pos hgt]
        have hpk : (B1.getD h []).getD k 0 ≠ 0 := by
          have hent : entry B1 h k = entry B imax k := hB1row k
          unfold entry at hent
          rw [hent]
          intro h0
          apply hp
          rw [himax_def] at h0 ⊢
          unfold entry
          rw [h0]
          norm_num [mabs, EPS]
        have hplen_eq : (B1.getD h []).length = (B1.getD i []).length := by
          rw [hB1R h (by omega), hB1R i hlen]
        have hpzero : ∀ j, j < k → (B1.getD h []).getD j 0 = 0 := by
          intro j hj
          have : entry B1 h j = 0 := by
            rw [hB1row]
            exact hZ imax j hge hj
          exact this
        rw [dotv_elimRow _ _ _ _ hpk hplen_eq hpzero, ho1 i, ho1 h]
        ring
      · rw [if_neg hgt]
        exact ho1 i
    · rw [if_neg hlen]
      exact dotv_nil v

/-- Master invariant of the elimination loop: if every diagonal entry of the
final matrix is at least `1e-9` in absolute value (i.e. back-substitution
takes no degenerate branch), then no column was ever skipped, the final
matrix is exactly lower-triangular-zero, and it keeps every null-space
vector of the initial rows. -/
theorem geLoop_master (m n : ℕ) (v : ℕ → ℚ) :
    ∀ (fuel : ℕ) (B : List (List ℚ)) (h k : ℕ),
      B.length = m → RowLen B n → h ≤ k → n ≤ k + fuel →
      ZeroBelow B h k → SettledTri B h → orth B v →
      (∀ i, i < m → EPS ≤ mabs (entry (geLoop m n B h k fuel) i i)) →
      (∀ i j, j < i → entry (geLoop m n B h k fuel) i j = 0) ∧
        orth (geLoop m n B h k fuel) v
  | 0, B, h, k, hm, hR, hhk, hfuel, hZ, hS, ho, _ => by
    refine ⟨?_, ho⟩
    intro i j hji
    by_cases hih : i < h
    · exact hS i j hih hji
    · by_cases hjn : j < n
      · exact hZ i j (by omega) (by omega)
      · exact entry_oob_col B n i j hR (by omega)
  | fuel + 1, B, h, k, hm, hR, hhk, hfuel, hZ, hS, ho, hdiag => by
    by_cases hc : h < m ∧ k < n
    · have hstep : geLoop m n B h k (fuel + 1) =
          if mabs (entry B (findPivotRow B h k m) k) < EPS then
            geLoop m n B h (k + 1) fuel
          else
            geLoop m n (elimBelow (swapRows B h (findPivotRow B h k m)) h k)
              (h + 1) (k + 1) fuel := by
        simp only [geLoop]
        rw [if_pos hc]
      by_cases hp : mabs (entry B (findPivotRow B h k m) k) < EPS
      · exfalso
        rw [hstep, if_pos hp] at hdiag
        have hspec := findPivotRow_spec B h k m hc.1
        by_cases hhk' : h = k
        · subst hhk'
          have hsmall : ∀ i, h ≤ i → mabs (entry B i h) < EPS := by
            intro i hi
            by_cases him : i < m
            · exact lt_of_le_of_lt (hspec.2.2 i hi him) hp
            · rw [entry_oob_row B i h (by omega)]
              norm_num [mabs, EPS]
          have hres := geLoop_smallcol m n fuel B h (h + 1) h (by omega) hsmall h (le_refl h)
          exact absurd (hdiag h hc.1) (not_le.mpr hres)
        · have hsmall : ∀ i, h ≤ i → mabs (entry B i h) < EPS := by
            intro i hi
            rw [hZ i h hi (by omega)]
            norm_num [mabs, EPS]
          have hres := geLoop_smallcol m n fuel B h (k + 1) h (by omega) hsmall h (le_refl h)
          exact absurd (hdiag h hc.1) (not_le.mpr hres)
      · obtain ⟨hlen2, hR2, hZ2, hS2, ho2⟩ :=
          pivotStep_inv B h k m n v hm hR hhk hc hp hZ hS ho
        rw [hstep, if_neg hp] at hdiag ⊢
        exact geLoop_master m n v fuel _ (h + 1) (k + 1) hlen2 hR2 (by omega) (by omega)
          hZ2 hS2 ho2 hdiag
    · have hres : geLoop m n B h k (fuel + 1) = B := by
        simp only [geLoop]
        rw [if_neg hc]
      rw [hres]
      refine ⟨?_, ho⟩
      intro i j hji
      by_cases hih : i < h
      · exact hS i j hih hji
      · rcases not_and_or.mp hc with hhm | hkn
        · exact entry_oob_row B i j (by omega)
        · by_cases hjn : j < n
          · exact hZ i j (by omega) (by omega)
          · exact entry_oob_col B n i j hR (by omega)

theorem foldl_sum_eq_Ico (f : ℕ → ℚ) :
    ∀ (s cnt : ℕ) (a : ℚ),
      (List.range' s cnt).foldl (fun acc j => acc + f j) a =
        a + ∑ j ∈ Finset.Ico s (s + cnt), f j
  | s, 0, a => by simp
  | s, cnt + 1, a => by
    simp only [List.range', List.foldl_cons]
    rw [foldl_sum_eq_Ico f (s + 1) cnt (a + f s),
      Finset.sum_eq_sum_Ico_succ_bot (by omega : s < s + (cnt + 1)),
      show s + 1 + cnt = s + (cnt + 1) from by omega, add_assoc]

theorem bsSum_eq_Ico (B : List (List ℚ)) (hh : ℕ → ℚ) (i : ℕ) (hi : i ≤ 8) :
    bsSum B hh i = ∑ j ∈ Finset.Ico (i + 1) 9, entry B i j * hh j := by
  unfold bsSum
  rw [foldl_sum_eq_Ico (fun j => entry B i j * hh j) (i + 1) (8 - i) 0, zero_add,
    show i + 1 + (8 - i) = 9 from by omega]

theorem row_orth_split (B : List (List ℚ)) (v : ℕ → ℚ) (i : ℕ) (hi : i < 8)
    (hR : RowLen B 9) (hlen : B.length = 8)
    (htri : ∀ i' j, j < i' → entry B i' j = 0) (ho : orth B v) :
    entry B i i * v i + ∑ j ∈ Finset.Ico (i + 1) 9, entry B i j * v j = 0 := by
  have hd := ho i
  unfold dotv at hd
  rw [hR i (by omega)] at hd
  have h1 : ∑ j ∈ Finset.range 9, (B.getD i []).getD j 0 * v j =
      (∑ j ∈ Finset.Ico 0 i, (B.getD i []).getD j 0 * v j) +
        ∑ j ∈ Finset.Ico i 9, (B.getD i []).getD j 0 * v j := by
    rw [Finset.range_eq_Ico,
      ← Finset.sum_Ico_consecutive _ (Nat.zero_le i) (by omega : i ≤ 9)]
  have h2 : ∑ j ∈ Finset.Ico i 9, (B.getD i []).getD j 0 * v j =
      (B.getD i []).getD i 0 * v i +
        ∑ j ∈ Finset.Ico (i + 1) 9, (B.getD i []).getD j 0 * v j :=
    Finset.sum_eq_sum_Ico_succ_bot (by omega) _
  have h3 : ∑ j ∈ Finset.Ico 0 i, (B.getD i []).getD j 0 * v j = 0 := by
    apply Finset.sum_eq_zero
    intro j hj
    rw [Finset.mem_Ico] at hj
    have hz := htri i j hj.2
    unfold entry at hz
    rw [hz, zero_mul]
  rw [h1, h2, h3, zero_add] at hd
  unfold entry
  exact hd

theorem bsRun_recovers (B : List (List ℚ)) (v : ℕ → ℚ)
    (hv8 : v 8 = 1) (hvhi : ∀ j, 8 < j → v j = 0)
    (hR : RowLen B 9) (hlen : B.length = 8)
    (htri : ∀ i j, j < i → entry B i j = 0) (ho : orth B v)
    (hdiag : ∀ i, i < 8 → EPS ≤ mabs (entry B i i)) :
    ∀ t, t ≤ 8 → ∀ j, 8 - t ≤ j → bsRun B t j = v j
  | 0, _, j, hj => by
    simp only [bsRun]
    by_cases h8 : j = 8
    · rw [if_pos h8, h8, hv8]
    · rw [if_neg h8, hvhi j (by omega)]
  | t + 1, ht, j, hj => by
    simp only [bsRun, bsUpdate]
    by_cases hji : j = 7 - t
    · rw [if_pos hji]
      have hi8 : 7 - t < 8 := by omega
      rw [if_neg (not_lt.mpr (hdiag (7 - t) hi8))]
      have hsum1 : bsSum B (bsRun B t) (7 - t) = bsSum B v (7 - t) := by
        unfold bsSum
        refine foldl_sum_congr (fun j' => entry B (7 - t) j' * bsRun B t j')
          (fun j' => entry B (7 - t) j' * v j') _ 0 ?_
        intro j' hj'
        rw [List.mem_range'_1] at hj'
        show entry B (7 - t) j' * bsRun B t j' = entry B (7 - t) j' * v j'
        rw [bsRun_recovers B v hv8 hvhi hR hlen htri ho hdiag t (by omega) j' (by omega)]
      rw [hsum1, bsSum_eq_Ico B v (7 - t) (by omega), hji]
      have horth := row_orth_split B v (7 - t) hi8 hR hlen htri ho
      have hne : entry B (7 - t) (7 - t) ≠ 0 := by
        intro h0
        have hd := hdiag (7 - t) hi8
        rw [h0] at hd
        norm_num [mabs, EPS] at hd
      field_simp
      linarith [horth]
    · rw [if_neg hji]
      exact bsRun_recovers B v hv8 hvhi hR hlen htri ho hdiag t (by omega) j (by omega)

theorem length_buildA4 (p1s p2s : List Point) : (buildA4 p1s p2s).length = 8 := rfl

theorem rowLen_buildA4 (p1s p2s : List Point) : RowLen (buildA4 p1s p2s) 9 := by
  intro i hi
  rw [length_buildA4] at hi
  interval_cases i <;> rfl

theorem buildA4_row (p1s p2s : List Point) (i : ℕ) (hi : i < 8) :
    (buildA4 p1s p2s).getD i [] =
      (buildRows (p1s.getD (i / 2) ⟨0, 0⟩) (p2s.getD (i / 2) ⟨0, 0⟩)).getD (i % 2) [] := by
  interval_cases i <;> rfl

theorem orth_buildA4_id (pts : List Point) : orth (buildA4 pts pts) idVec := by
  intro i
  by_cases hi : i < 8
  · interval_cases i <;>
      · rw [buildA4_row pts pts _ (by omega)]
        simp [buildRows, dotv, idVec, Finset.sum_range_succ]
        try ring
  · have hnil : (buildA4 pts pts).getD i [] = [] :=
      getD_oob _ _ _ (by rw [length_buildA4]; omega)
    rw [hnil]
    exact dotv_nil idVec

/-- C8 (amended): for every self-correspondence input (`points1 = points2`)
on which back-substitution takes no degenerate branch — all eight pivots of
the eliminated system satisfy `|B[i][i]| ≥ 1e-9` — the solved homography is
exactly the 3×3 identity matrix. -/
theorem claim8_amended (pts : List Point)
    (hdiag : ∀ i, i < 8 →
      EPS ≤ mabs (entry (gaussianElimination (buildA4 pts pts)) i i)) :
    solveHomographyFor4Points pts pts = some [[1, 0, 0], [0, 1, 0], [0, 0, 1]] := by
  have h9 : ((buildA4 pts pts).getD 0 []).length = 9 :=
    rowLen_buildA4 pts pts 0 (by rw [length_buildA4]; omega)
  have hge : gaussianElimination (buildA4 pts pts) =
      geLoop 8 9 (buildA4 pts pts) 0 0 9 := by
    unfold gaussianElimination
    rw [length_buildA4, h9]
  rw [hge] at hdiag
  have hidv8 : idVec 8 = 1 := by norm_num [idVec]
  have hidvhi : ∀ j, 8 < j → idVec j = 0 := by
    intro j hj
    simp only [idVec, if_neg (by omega : ¬(j = 0 ∨ j = 4 ∨ j = 8))]
  obtain ⟨htri, ho⟩ := geLoop_master 8 9 idVec 9 (buildA4 pts pts) 0 0
    (length_buildA4 pts pts) (rowLen_buildA4 pts pts) (le_refl 0) (by omega)
    (fun i j _ hj => by omega) (fun i j hi _ => by omega)
    (orth_buildA4_id pts) hdiag
  obtain ⟨hlen8, hR9⟩ := geLoop_shape 8 9 9 (buildA4 pts pts) 0 0
    (length_buildA4 pts pts) (rowLen_buildA4 pts pts)
  have hbs : ∀ j, backSubs (geLoop 8 9 (buildA4 pts pts) 0 0 9) j = idVec j :=
    fun j => bsRun_recovers (geLoop 8 9 (buildA4 pts pts) 0 0 9) idVec hidv8 hidvhi
      hR9 hlen8 htri ho hdiag 8 (le_refl 8) j (by omega)
  have hpre : preH pts pts = [[1, 0, 0], [0, 1, 0], [0, 0, 1]] := by
    unfold preH
    rw [hge, List.map_congr_left (fun j _ => hbs j)]
    rfl
  rw [finishSolve_ite, hpre]
  have h22 : entry ([[1, 0, 0], [0, 1, 0], [0, 0, 1]] : List (List ℚ)) 2 2 = 1 := by
    norm_num [entry]
  rw [h22, if_neg (by norm_num [mabs, EPS])]
  norm_num

set_option maxRecDepth 1000000 in
/-- Witness for C8 (amended) at a concrete non-degenerate self-corresponding
4-point input. -/
theorem claim8_witness :
    (∀ i, i < 8 → EPS ≤ mabs (entry (gaussianElimination (buildA4
        [Point.mk 0 0, Point.mk 1 0, Point.mk 0 1, Point.mk 1 1]
        [Point.mk 0 0, Point.mk 1 0, Point.mk 0 1, Point.mk 1 1])) i i)) ∧
      solveHomographyFor4Points
          [Point.mk 0 0, Point.mk 1 0, Point.mk 0 1, Point.mk 1 1]
          [Point.mk 0 0, Point.mk 1 0, Point.mk 0 1, Point.mk 1 1] =
        some [[1, 0, 0], [0, 1, 0], [0, 0, 1]] := by
  have hd : ∀ i, i < 8 → EPS ≤ mabs (entry (gaussianElimination (buildA4
      [Point.mk 0 0, Point.mk 1 0, Point.mk 0 1, Point.mk 1 1]
      [Point.mk 0 0, Point.mk 1 0, Point.mk 0 1, Point.mk 1 1])) i i) := by
    with_unfolding_all decide
  exact ⟨hd, claim8_amended _ hd⟩

set_option maxRecDepth 1000000 in
/-- Counterexample to C8 as stated: four coincident self-corresponding
points (`points1 = points2`, all `(0,0)`) solve to `diag(0, 0, 1)`, whose
top-left entry differs from the identity's by exactly 1 — not the identity
within any reasonable tolerance. -/
theorem claim8_counterexample :
    solveHomographyFor4Points
        [Point.mk 0 0, Point.mk 0 0, Point.mk 0 0, Point.mk 0 0]
        [Point.mk 0 0, Point.mk 0 0, Point.mk 0 0, Point.mk 0 0] =
      some [[0, 0, 0], [0, 0, 0], [0, 0, 1]] ∧
    mabs (entry ([[0, 0, 0], [0, 0, 0], [0, 0, 1]] : List (List ℚ)) 0 0 - 1) = 1 ∧
    ([[0, 0, 0], [0, 0, 0], [0, 0, 1]] : List (List ℚ)) ≠
      [[1, 0, 0], [0, 1, 0], [0, 0, 1]] := by
  refine ⟨by with_unfolding_all decide, by norm_num [mabs, entry], by decide⟩

end HomoVision
